import Mathlib

/-!
# Verification of the PDF AI Transcreator extraction/normalization pipeline

A shallow embedding of the text-processing pipeline of the repository
(`src/app/api/extract-pdf/route.ts`, `src/app/api/generate-audio/route.ts`,
and the SQLite access layer `lib/database.ts` as listed in the README).

Strings are modelled as `List Char` (one entry per UTF-16 code unit of the
JavaScript string; all inputs considered here stay within the BMP, where the
two notions coincide).  JavaScript regular-expression character classes
(`\s`, `\w`) and string primitives (`trim`, `lastIndexOf`, `substring`,
truthiness of strings and numbers) are embedded explicitly below.
-/

namespace PdfAI

/-! ## JavaScript character classes and string primitives -/

/-- JavaScript `\s` (and the character set removed by `String.prototype.trim`):
whitespace and line terminators. -/
def jsIsSpace (c : Char) : Bool :=
  c = ' ' || c = '\t' || c = '\n' || c = '\u000B' || c = '\u000C' || c = '\r' ||
  c = '\u00A0' || c = '\u1680' || (0x2000 ≤ c.val && c.val ≤ 0x200a) ||
  c = '\u2028' || c = '\u2029' || c = '\u202F' || c = '\u205F' ||
  c = '\u3000' || c = '\uFEFF'

/-- JavaScript `\w`: `[A-Za-z0-9_]`. -/
def isWordChar (c : Char) : Bool :=
  ('A' ≤ c && c ≤ 'Z') || ('a' ≤ c && c ≤ 'z') || ('0' ≤ c && c ≤ '9') || c = '_'

/-- The sentence-ending punctuation class `[\.!\?]` used by the spacing fixups. -/
def isPunct3 (c : Char) : Bool :=
  c = '.' || c = '!' || c = '?'

/-- The allow-list of `cleanAndProcessText`'s third `replace`:
`[\w\s\.\,\!\?\-\(\)\[\]\:\"\']` (every character outside it becomes a space). -/
def isAllowedChar (c : Char) : Bool :=
  isWordChar c || jsIsSpace c ||
  c = '.' || c = ',' || c = '!' || c = '?' || c = '-' || c = '(' || c = ')' ||
  c = '[' || c = ']' || c = ':' || c = '"' || c = '\''

/-- Drop trailing JavaScript whitespace. -/
def dropTrailingWs (l : List Char) : List Char :=
  (l.reverse.dropWhile jsIsSpace).reverse

/-- JavaScript `String.prototype.trim`. -/
def jsTrim (l : List Char) : List Char :=
  dropTrailingWs (l.dropWhile jsIsSpace)

/-- JavaScript `String.prototype.lastIndexOf` for a single character:
the largest index holding `c`, or `-1` if there is none. -/
def jsLastIndexOf (l : List Char) (c : Char) : Int :=
  match l with
  | [] => -1
  | a :: as =>
    let r := jsLastIndexOf as c
    if r ≥ 0 then r + 1
    else if a = c then 0 else -1

example : jsTrim "  ab  ".toList = "ab".toList := by decide
example : jsLastIndexOf "a.b.c".toList '.' = 3 := by decide
example : jsLastIndexOf "abc".toList '.' = -1 := by decide

theorem jsLastIndexOf_neg_one_le (l : List Char) (c : Char) :
    -1 ≤ jsLastIndexOf l c := by
  induction l with
  | nil => simp [jsLastIndexOf]
  | cons a as ih =>
    simp only [jsLastIndexOf]
    split
    · omega
    · split <;> omega

theorem jsLastIndexOf_lt_length (l : List Char) (c : Char) :
    jsLastIndexOf l c < (l.length : Int) := by
  induction l with
  | nil => simp [jsLastIndexOf]
  | cons a as ih =>
    simp only [jsLastIndexOf, List.length_cons]
    split
    · push_cast; omega
    · split <;> [push_cast; skip] <;> omega

theorem jsLastIndexOf_of_not_mem {l : List Char} {c : Char} (h : c ∉ l) :
    jsLastIndexOf l c = -1 := by
  induction l with
  | nil => rfl
  | cons a as ih =>
    simp only [List.mem_cons, not_or] at h
    simp only [jsLastIndexOf, ih h.2]
    have : ¬ a = c := fun hc => h.1 hc.symm
    simp [this]

theorem jsLastIndexOf_cons (a : Char) (as : List Char) (c : Char) :
    jsLastIndexOf (a :: as) c =
      if jsLastIndexOf as c ≥ 0 then jsLastIndexOf as c + 1
      else if a = c then 0 else -1 := rfl

theorem jsLastIndexOf_append (l₁ l₂ : List Char) (c : Char) :
    jsLastIndexOf (l₁ ++ l₂) c =
      if jsLastIndexOf l₂ c ≥ 0 then (l₁.length : Int) + jsLastIndexOf l₂ c
      else jsLastIndexOf l₁ c := by
  induction l₁ with
  | nil =>
    simp only [List.nil_append, List.length_nil, Int.ofNat_zero, zero_add]
    split
    · rfl
    · show jsLastIndexOf l₂ c = -1
      have := jsLastIndexOf_neg_one_le l₂ c
      omega
  | cons a as ih =>
    rw [List.cons_append, jsLastIndexOf_cons, ih, jsLastIndexOf_cons]
    by_cases h2 : jsLastIndexOf l₂ c ≥ 0
    · have hge : (as.length : Int) + jsLastIndexOf l₂ c ≥ 0 := by positivity
      rw [if_pos h2, if_pos hge, if_pos h2, List.length_cons]
      push_cast
      ring
    · rw [if_neg h2, if_neg h2]

/-! ## Truncation (extract-pdf route, lines 249-263; generate-audio route, lines 37-55) -/

/-- The pre-transcreation truncation step of the extraction route
(`MAX_CHARS = 2200`); returns `(finalText, wasTruncated)`.  When the text is
over budget it is hard-cut at 2200 and then backtracked to the last `'.'`
provided that period sits at a positive index. -/
def truncateForTranscreation (cleanedText : List Char) : List Char × Bool :=
  if cleanedText.length > 2200 then
    let truncated := cleanedText.take 2200
    let lastPeriod := jsLastIndexOf truncated '.'
    if lastPeriod > 0 then (truncated.take (lastPeriod.toNat + 1), true)
    else (truncated, true)
  else (cleanedText, false)

/-- The pre-speech truncation step of the audio route (`MAX_CHARS = 2000`).
The JavaScript guard is `cutPoint > MAX_CHARS * 0.7`; `2000 * 0.7` evaluates to
exactly `1400.0` in IEEE-754 double arithmetic, so the guard is
`cutPoint > 1400`.  Below the proximity guard, the hard cut gets `'...'`
appended. -/
def truncateForSpeech (text : List Char) : List Char :=
  if text.length > 2000 then
    let truncated := text.take 2000
    let lastSentence := jsLastIndexOf truncated '.'
    let lastQuestion := jsLastIndexOf truncated '?'
    let lastExclamation := jsLastIndexOf truncated '!'
    let cutPoint := max lastSentence (max lastQuestion lastExclamation)
    if cutPoint > 1400 then truncated.take (cutPoint.toNat + 1)
    else truncated ++ ('.' :: '.' :: '.' :: [])
  else text

/-- C1: over the budget, the pre-transcreation output is at most 2200
characters and the pre-speech output is at most 2000 characters unless the
ellipsis marker was appended to the hard 2000-cut (2003 characters); at or
under the budget both steps return the input unchanged. -/
theorem C1_truncation_invariant (s : List Char) :
    (s.length > 2200 → (truncateForTranscreation s).1.length ≤ 2200) ∧
    (s.length ≤ 2200 → truncateForTranscreation s = (s, false)) ∧
    (s.length > 2000 →
      (truncateForSpeech s).length ≤ 2000 + 3 ∧
      (truncateForSpeech s = s.take 2000 ++ ('.' :: '.' :: '.' :: []) ∨
        (truncateForSpeech s).length ≤ 2000)) ∧
    (s.length ≤ 2000 → truncateForSpeech s = s) := by
  refine ⟨fun h => ?_, fun h => ?_, fun h => ?_, fun h => ?_⟩
  · simp only [truncateForTranscreation, if_pos h]
    split
    · exact le_trans (List.length_take_le' _ _) (List.length_take_le _ _)
    · exact List.length_take_le _ _
  · simp [truncateForTranscreation, if_neg (by omega : ¬ s.length > 2200)]
  · constructor
    · simp only [truncateForSpeech, if_pos h]
      split
      · exact le_trans (le_trans (List.length_take_le' _ _)
          (List.length_take_le 2000 s)) (by omega)
      · have h2 := List.length_take_le 2000 s
        simp only [List.length_append, List.length_cons, List.length_nil]
        omega
    · simp only [truncateForSpeech, if_pos h]
      split
      · right
        exact le_trans (List.length_take_le' _ _) (List.length_take_le _ _)
      · left; rfl
  · simp [truncateForSpeech, if_neg (by omega : ¬ s.length > 2000)]

/-- Witness for C1 at concrete inputs on both sides of each budget. -/
theorem C1_truncation_invariant_witness :
    ((List.replicate 2300 'a').length > 2200 ∧
      (truncateForTranscreation (List.replicate 2300 'a')).1.length ≤ 2200) ∧
    ("abc".toList.length ≤ 2200 ∧
      truncateForTranscreation "abc".toList = ("abc".toList, false)) ∧
    ((List.replicate 2100 'b').length > 2000 ∧
      (truncateForSpeech (List.replicate 2100 'b')).length ≤ 2000 + 3) ∧
    ("xy".toList.length ≤ 2000 ∧ truncateForSpeech "xy".toList = "xy".toList) := by
  have h1 : (List.replicate 2300 'a').length > 2200 := by
    rw [List.length_replicate]; omega
  have h2 : "abc".toList.length ≤ 2200 := by decide
  have h3 : (List.replicate 2100 'b').length > 2000 := by
    rw [List.length_replicate]; omega
  have h4 : "xy".toList.length ≤ 2000 := by decide
  exact ⟨⟨h1, (C1_truncation_invariant (List.replicate 2300 'a')).1 h1⟩,
    ⟨h2, (C1_truncation_invariant "abc".toList).2.1 h2⟩,
    ⟨h3, ((C1_truncation_invariant (List.replicate 2100 'b')).2.2.1 h3).1⟩,
    ⟨h4, (C1_truncation_invariant "xy".toList).2.2.2 h4⟩⟩

theorem jsLastIndexOf_replicate_ne (n : Nat) {a c : Char} (h : c ≠ a) :
    jsLastIndexOf (List.replicate n a) c = -1 :=
  jsLastIndexOf_of_not_mem (by
    simp only [List.mem_replicate, not_and]
    intro _
    exact h)

theorem jsLastIndexOf_mid (n m : Nat) {a c : Char} (h : c ≠ a) :
    jsLastIndexOf (List.replicate n a ++ c :: List.replicate m a) c = n := by
  rw [jsLastIndexOf_append, jsLastIndexOf_cons, jsLastIndexOf_replicate_ne m h]
  norm_num

theorem jsLastIndexOf_mid_other (n m : Nat) {a b c : Char} (hca : c ≠ a) (hcb : c ≠ b) :
    jsLastIndexOf (List.replicate n a ++ b :: List.replicate m a) c = -1 := by
  apply jsLastIndexOf_of_not_mem
  simp only [List.mem_append, List.mem_cons, List.mem_replicate, not_or, not_and]
  exact ⟨fun _ => hca, hcb, fun _ => hca⟩

theorem take_mid (a c : Char) (n m k : Nat) (hk : k ≤ m) :
    (List.replicate n a ++ c :: List.replicate m a).take (n + (k + 1)) =
      List.replicate n a ++ c :: List.replicate k a := by
  rw [List.take_append_eq_append_take, List.take_replicate, List.length_replicate]
  have h1 : min (n + (k + 1)) n = n := by omega
  have h2 : n + (k + 1) - n = k + 1 := by omega
  rw [h1, h2, List.take_succ_cons, List.take_replicate, Nat.min_eq_left hk]

/-- C6 as stated by the spec: a sentence-ending punctuation mark whose largest
index within the first 2000 characters is *no further back than 70% of the
budget* (index ≥ 1400) yields the sentence cut; otherwise the hard cut plus
ellipsis. -/
def speechBacktrackAtSeventyPct : Prop :=
  ∀ s : List Char, s.length > 2000 →
    (let truncated := s.take 2000
     let cutPoint := max (jsLastIndexOf truncated '.')
       (max (jsLastIndexOf truncated '?') (jsLastIndexOf truncated '!'))
     (cutPoint ≥ 1400 → truncateForSpeech s = truncated.take (cutPoint.toNat + 1)) ∧
     (cutPoint < 1400 → truncateForSpeech s = truncated ++ ('.' :: '.' :: '.' :: [])))

/-- A 2001-character text whose only sentence marker sits exactly at index
1400, i.e. exactly at 70% of the 2000-character budget. -/
def boundaryText : List Char :=
  List.replicate 1400 'a' ++ '.' :: List.replicate 600 'a'

theorem boundaryText_length : boundaryText.length = 2001 := by
  rw [boundaryText, List.length_append, List.length_cons, List.length_replicate,
    List.length_replicate]

theorem boundaryText_take :
    boundaryText.take 2000 = List.replicate 1400 'a' ++ '.' :: List.replicate 599 'a' := by
  have h : (2000 : Nat) = 1400 + (599 + 1) := by norm_num
  rw [boundaryText, h, take_mid _ _ _ _ _ (by omega)]

theorem boundaryText_cutPoint :
    max (jsLastIndexOf (boundaryText.take 2000) '.')
      (max (jsLastIndexOf (boundaryText.take 2000) '?')
        (jsLastIndexOf (boundaryText.take 2000) '!')) = 1400 := by
  rw [boundaryText_take, jsLastIndexOf_mid 1400 599 (by decide),
    jsLastIndexOf_mid_other 1400 599 (by decide) (by decide),
    jsLastIndexOf_mid_other 1400 599 (by decide) (by decide)]
  decide

theorem truncateForSpeech_boundaryText :
    truncateForSpeech boundaryText =
      boundaryText.take 2000 ++ ('.' :: '.' :: '.' :: []) := by
  have hl : boundaryText.length > 2000 := by rw [boundaryText_length]; omega
  simp only [truncateForSpeech, if_pos hl]
  rw [if_neg]
  rw [boundaryText_cutPoint]
  decide

/-- Counterexample to C6: at the boundary index 1400 (exactly 70% of the
budget) the code takes the ellipsis branch, because its guard is the strict
comparison `cutPoint > 1400`. -/
theorem C6_seventyPct_counterexample : ¬ speechBacktrackAtSeventyPct := by
  intro h
  have h1 := (h boundaryText (by rw [boundaryText_length]; omega)).1
  rw [boundaryText_cutPoint] at h1
  have h2 := h1 (by norm_num)
  rw [truncateForSpeech_boundaryText] at h2
  have h3 := congrArg List.length h2
  have h4 : (boundaryText.take 2000).length = 2000 := by
    rw [boundaryText_take, List.length_append, List.length_cons,
      List.length_replicate, List.length_replicate]
  simp only [List.length_append, List.length_take, List.length_cons,
    List.length_nil, h4, Int.toNat_ofNat] at h3
  omega

/-- C6 amended: the sentence cut happens exactly when the punctuation index is
*strictly* beyond 70% of the budget (`cutPoint > 1400`); at index 1400 or
earlier (including exactly 70%) the hard 2000-cut plus `'...'` is returned. -/
theorem C6_amended_strict_proximity (s : List Char) (h : s.length > 2000) :
    (let truncated := s.take 2000
     let cutPoint := max (jsLastIndexOf truncated '.')
       (max (jsLastIndexOf truncated '?') (jsLastIndexOf truncated '!'))
     (cutPoint > 1400 → truncateForSpeech s = truncated.take (cutPoint.toNat + 1)) ∧
     (cutPoint ≤ 1400 → truncateForSpeech s = truncated ++ ('.' :: '.' :: '.' :: []))) := by
  refine ⟨fun hc => ?_, fun hc => ?_⟩
  · simp only [truncateForSpeech, if_pos h]
    rw [if_pos hc]
  · simp only [truncateForSpeech, if_pos h]
    rw [if_neg (by omega)]

/-- A 2001-character text whose only sentence marker sits at index 1401,
strictly beyond 70% of the budget. -/
def pastBoundaryText : List Char :=
  List.replicate 1401 'a' ++ '.' :: List.replicate 599 'a'

theorem pastBoundaryText_take :
    pastBoundaryText.take 2000 =
      List.replicate 1401 'a' ++ '.' :: List.replicate 598 'a' := by
  have h : (2000 : Nat) = 1401 + (598 + 1) := by norm_num
  rw [pastBoundaryText, h, take_mid _ _ _ _ _ (by omega)]

theorem pastBoundaryText_cutPoint :
    max (jsLastIndexOf (pastBoundaryText.take 2000) '.')
      (max (jsLastIndexOf (pastBoundaryText.take 2000) '?')
        (jsLastIndexOf (pastBoundaryText.take 2000) '!')) = 1401 := by
  rw [pastBoundaryText_take, jsLastIndexOf_mid 1401 598 (by decide),
    jsLastIndexOf_mid_other 1401 598 (by decide) (by decide),
    jsLastIndexOf_mid_other 1401 598 (by decide) (by decide)]
  decide

/-- Witness for the amended C6 on a concrete text with its last sentence
marker at index 1401. -/
theorem C6_amended_strict_proximity_witness :
    pastBoundaryText.length > 2000 ∧
    truncateForSpeech pastBoundaryText = (pastBoundaryText.take 2000).take 1402 := by
  have hl : pastBoundaryText.length > 2000 := by
    rw [pastBoundaryText, List.length_append, List.length_cons,
      List.length_replicate, List.length_replicate]
    omega
  refine ⟨hl, ?_⟩
  have h1 := (C6_amended_strict_proximity pastBoundaryText hl).1
  rw [pastBoundaryText_cutPoint] at h1
  have h2 := h1 (by norm_num)
  rw [h2]
  have ht : (1401 : Int).toNat = 1401 := rfl
  rw [ht]

/-! ## Voice selection (generate-audio route, lines 57-66) -/

/-- Values reachable by the property access `voiceMap[language]` on the
object literal: an own property holding a voice-id string, or a member
inherited from `Object.prototype` (a function — or, for the accessor key,
the prototype object itself).  Inherited members are never strings. -/
inductive JsPropValue where
  | str (s : List Char)
  | protoMember (name : List Char)
deriving DecidableEq

/-- The property names every plain object literal inherits from
`Object.prototype`.  Each of them reads back as a truthy non-string value. -/
def objectProtoKeys : List (List Char) :=
  ["constructor".toList, "hasOwnProperty".toList, "isPrototypeOf".toList,
   "propertyIsEnumerable".toList, "toLocaleString".toList, "toString".toList,
   "valueOf".toList, "__defineGetter__".toList, "__defineSetter__".toList,
   "__lookupGetter__".toList, "__lookupSetter__".toList, "__proto__".toList]

/-- The `voiceMap` object literal of the audio route (its own properties). -/
def voiceMap : List (List Char × List Char) :=
  [("Hindi".toList, "pNInz6obpgDQGcFmaJgB".toList),
   ("Telugu".toList, "pNInz6obpgDQGcFmaJgB".toList),
   ("Spanish".toList, "EXAVITQu4vr4xnSDxMaL".toList),
   ("French".toList, "EXAVITQu4vr4xnSDxMaL".toList),
   ("Chinese".toList, "EXAVITQu4vr4xnSDxMaL".toList)]

/-- JavaScript property access `voiceMap[language]`: an own property wins;
otherwise the prototype chain (here a single step to `Object.prototype`) is
consulted; only a name absent from both yields `undefined` (`none`). -/
def voiceMapAccess (language : List Char) : Option JsPropValue :=
  match voiceMap.find? (fun p => p.1 = language) with
  | some p => some (JsPropValue.str p.2)
  | none =>
    if language ∈ objectProtoKeys then some (JsPropValue.protoMember language)
    else none

/-- JavaScript truthiness of a property value: a string is truthy exactly
when nonempty; every inherited `Object.prototype` member is a function or
object and hence truthy. -/
def jsPropTruthy : JsPropValue → Bool
  | .str s => decide (s ≠ [])
  | .protoMember _ => true

/-- The source line `const voiceId = voiceMap[language] || 'pNInz6obpgDQGcFmaJgB';`:
a truthy access result wins, a falsy or absent one falls back to the default. -/
def voiceFor (language : List Char) : JsPropValue :=
  match voiceMapAccess language with
  | some v =>
    if jsPropTruthy v then v else JsPropValue.str "pNInz6obpgDQGcFmaJgB".toList
  | none => JsPropValue.str "pNInz6obpgDQGcFmaJgB".toList

/-- The C10 claim as stated: each of the five mapped languages receives its
mapped voice id and EVERY other language string receives the default voice
id `pNInz6obpgDQGcFmaJgB`. -/
def voiceSelectionClaim : Prop :=
  voiceFor "Hindi".toList = JsPropValue.str "pNInz6obpgDQGcFmaJgB".toList ∧
  voiceFor "Telugu".toList = JsPropValue.str "pNInz6obpgDQGcFmaJgB".toList ∧
  voiceFor "Spanish".toList = JsPropValue.str "EXAVITQu4vr4xnSDxMaL".toList ∧
  voiceFor "French".toList = JsPropValue.str "EXAVITQu4vr4xnSDxMaL".toList ∧
  voiceFor "Chinese".toList = JsPropValue.str "EXAVITQu4vr4xnSDxMaL".toList ∧
  ∀ language : List Char,
    language ∉ ["Hindi".toList, "Telugu".toList, "Spanish".toList,
      "French".toList, "Chinese".toList] →
    voiceFor language = JsPropValue.str "pNInz6obpgDQGcFmaJgB".toList

/-- C10 (counterexample): the universal fallback clause fails at
`language = "toString"`.  The property access finds the member inherited
from `Object.prototype`; it is truthy, so the fallback of `||` is skipped
and `voiceId` is that function, not the default voice id. -/
theorem C10_voice_counterexample : ¬ voiceSelectionClaim := by
  intro h
  have hts := h.2.2.2.2.2 "toString".toList (by decide)
  exact absurd hts (by decide)

/-- C10 (amended): each of the five mapped languages receives its mapped
voice id; a language string naming an `Object.prototype` member receives
that truthy inherited member instead of a voice-id string; every language
string outside both sets receives the default voice id
`pNInz6obpgDQGcFmaJgB`. -/
theorem C10_voice_amended :
    voiceFor "Hindi".toList = JsPropValue.str "pNInz6obpgDQGcFmaJgB".toList ∧
    voiceFor "Telugu".toList = JsPropValue.str "pNInz6obpgDQGcFmaJgB".toList ∧
    voiceFor "Spanish".toList = JsPropValue.str "EXAVITQu4vr4xnSDxMaL".toList ∧
    voiceFor "French".toList = JsPropValue.str "EXAVITQu4vr4xnSDxMaL".toList ∧
    voiceFor "Chinese".toList = JsPropValue.str "EXAVITQu4vr4xnSDxMaL".toList ∧
    (∀ language ∈ objectProtoKeys,
      voiceFor language = JsPropValue.protoMember language) ∧
    ∀ language : List Char,
      language ∉ ["Hindi".toList, "Telugu".toList, "Spanish".toList,
        "French".toList, "Chinese".toList] →
      language ∉ objectProtoKeys →
      voiceFor language = JsPropValue.str "pNInz6obpgDQGcFmaJgB".toList := by
  refine ⟨by decide, by decide, by decide, by decide, by decide, by decide, ?_⟩
  intro language h1 h2
  simp only [List.mem_cons, List.not_mem_nil, not_or, or_false] at h1
  obtain ⟨hh, ht, hs, hf, hc⟩ := h1
  have hfind : voiceMap.find? (fun p => p.1 = language) = none := by
    unfold voiceMap
    rw [List.find?_cons_of_neg, List.find?_cons_of_neg, List.find?_cons_of_neg,
      List.find?_cons_of_neg, List.find?_cons_of_neg, List.find?_nil]
    all_goals simp_all [eq_comm]
  have hlook : voiceMapAccess language = none := by
    simp only [voiceMapAccess, hfind]
    exact if_neg h2
  simp only [voiceFor, hlook]

/-- Witness for C10's amended clauses: the prototype clause at `"toString"`
and the default clause at the unmapped language `"German"`. -/
theorem C10_voice_amended_witness :
    ("toString".toList ∈ objectProtoKeys ∧
      voiceFor "toString".toList = JsPropValue.protoMember "toString".toList) ∧
    ("German".toList ∉ ["Hindi".toList, "Telugu".toList, "Spanish".toList,
        "French".toList, "Chinese".toList] ∧
      "German".toList ∉ objectProtoKeys ∧
      voiceFor "German".toList = JsPropValue.str "pNInz6obpgDQGcFmaJgB".toList) :=
  ⟨⟨by decide, C10_voice_amended.2.2.2.2.2.1 "toString".toList (by decide)⟩,
   ⟨by decide, by decide,
    C10_voice_amended.2.2.2.2.2.2 "German".toList (by decide) (by decide)⟩⟩

/-! ## Incremental PDF text extraction (extract-pdf route, lines 178-224) -/

/-- Items delivered by `PdfReader.parseBuffer` to its callback: an error, a
page marker (`item.page`) or a text token (`item.text`).  The end-of-buffer
call (`!item`) is the end of the stream. -/
inductive PdfItem where
  | err (msg : List Char)
  | page (n : Nat)
  | text (s : List Char)
deriving DecidableEq, Repr

/-- The callback's mutable state.  `settled` models the promise: the first
`resolve`/`reject` wins; the callback itself keeps firing for later items
because the reader is not aborted, but a settled promise never changes. -/
structure ParseState where
  text : List Char
  pageCount : Nat
  currentPage : Nat
  settled : Option (Except (List Char) (List Char))
deriving Repr

def initialParseState : ParseState := ⟨[], 0, 0, none⟩

/-- One invocation of the `parseBuffer` callback (the route runs it with
`maxPages = 3`).  `item.page` and `item.text` are tested for truthiness, so a
page number `0` or an empty text token falls through. -/
def pdfStep (maxPages : Nat) (st : ParseState) (item : PdfItem) : ParseState :=
  match item with
  | .err m =>
    { st with settled := st.settled.orElse (fun _ => some (.error m)) }
  | .page n =>
    if n ≠ 0 then
      let pc := max st.pageCount n
      if n > maxPages then
        { st with
            currentPage := n
            pageCount := pc
            settled := st.settled.orElse (fun _ => some (.ok (jsTrim st.text))) }
      else { st with currentPage := n, pageCount := pc }
    else st
  | .text s =>
    if s ≠ [] ∧ st.currentPage ≤ maxPages then
      { st with text := st.text ++ s ++ [' '] }
    else st

/-- The promise's value after the whole buffer has been delivered: the
end-of-buffer callback resolves with the trimmed accumulated text if the
promise is still pending. -/
def pdfReaderRun (items : List PdfItem) : Except (List Char) (List Char) :=
  let final := items.foldl (pdfStep 3) initialParseState
  final.settled.getD (.ok (jsTrim final.text))

/-- The page count reported once the whole buffer has been delivered
(`totalPages = pageCount` at end of buffer). -/
def pdfReaderPages (items : List PdfItem) : Nat :=
  (items.foldl (pdfStep 3) initialParseState).pageCount

/-- Modelled from the claim text for C5: collect the (non-empty) text tokens
delivered while the current page is at most 3 and stop consuming at the first
page marker exceeding the cap. -/
def specFirstThreePages (cur : Nat) : List PdfItem → List Char
  | [] => []
  | .err _ :: rest => specFirstThreePages cur rest
  | .page n :: rest =>
    if n ≠ 0 then (if n > 3 then [] else specFirstThreePages n rest)
    else specFirstThreePages cur rest
  | .text s :: rest =>
    if s ≠ [] ∧ cur ≤ 3 then s ++ ' ' :: specFirstThreePages cur rest
    else specFirstThreePages cur rest

theorem pdfStep_settled_some {maxPages : Nat} {st : ParseState}
    {r : Except (List Char) (List Char)} (h : st.settled = some r)
    (item : PdfItem) : (pdfStep maxPages st item).settled = some r := by
  cases item with
  | err m => simp [pdfStep, h, Option.orElse]
  | page n =>
    simp only [pdfStep]
    split
    · split <;> simp [h, Option.orElse]
    · exact h
  | text s =>
    simp only [pdfStep]
    split <;> simp [h]

theorem foldl_pdfStep_settled_some {maxPages : Nat}
    {r : Except (List Char) (List Char)} (items : List PdfItem) :
    ∀ st : ParseState, st.settled = some r →
      (items.foldl (pdfStep maxPages) st).settled = some r := by
  induction items with
  | nil => intro st h; exact h
  | cons item rest ih =>
    intro st h
    rw [List.foldl_cons]
    exact ih _ (pdfStep_settled_some h item)

theorem foldl_pdfStep_pending (items : List PdfItem)
    (herr : ∀ m, PdfItem.err m ∉ items) :
    ∀ st : ParseState, st.settled = none →
      (let final := items.foldl (pdfStep 3) st
       final.settled.getD (.ok (jsTrim final.text)) =
         .ok (jsTrim (st.text ++ specFirstThreePages st.currentPage items))) := by
  induction items with
  | nil =>
    intro st h
    simp [specFirstThreePages, h]
  | cons item rest ih =>
    have herr' : ∀ m, PdfItem.err m ∉ rest := fun m hm =>
      herr m (List.mem_cons_of_mem _ hm)
    intro st h
    cases item with
    | err m => exact absurd (List.mem_cons_self _ _) (herr m)
    | page n =>
      by_cases hn : n ≠ 0
      · by_cases hcap : n > 3
        · have hset : (pdfStep 3 st (.page n)).settled = some (.ok (jsTrim st.text)) := by
            simp [pdfStep, hn, hcap, h, Option.orElse]
          simp only [List.foldl_cons]
          rw [foldl_pdfStep_settled_some rest _ hset]
          simp [specFirstThreePages, hn, hcap]
        · have hstep : pdfStep 3 st (.page n) =
              { st with currentPage := n, pageCount := max st.pageCount n } := by
            simp [pdfStep, hn, hcap]
          simp only [List.foldl_cons, hstep]
          have := ih herr' { st with currentPage := n, pageCount := max st.pageCount n } h
          simp only at this
          rw [this]
          simp [specFirstThreePages, hn, hcap]
      · have hstep : pdfStep 3 st (.page n) = st := by simp [pdfStep, hn]
        simp only [List.foldl_cons, hstep]
        have := ih herr' st h
        simp only at this
        rw [this]
        simp only [not_not] at hn
        simp [specFirstThreePages, hn]
    | text s =>
      by_cases hg : s ≠ [] ∧ st.currentPage ≤ 3
      · have hstep : pdfStep 3 st (.text s) = { st with text := st.text ++ s ++ [' '] } := by
          simp only [pdfStep, if_pos hg]
        simp only [List.foldl_cons, hstep]
        have := ih herr' { st with text := st.text ++ s ++ [' '] } h
        simp only at this
        rw [this]
        simp only [specFirstThreePages, if_pos hg]
        congr 1
        rw [List.append_assoc, List.append_assoc]
        rfl
      · have hstep : pdfStep 3 st (.text s) = st := by
          simp only [pdfStep, if_neg hg]
        simp only [List.foldl_cons, hstep]
        have := ih herr' st h
        simp only at this
        rw [this]
        simp only [specFirstThreePages, if_neg hg]

/-- C5: on an error-free item stream, the promise resolves to exactly the
trimmed concatenation of the text tokens delivered for pages 1-3, cut off at
the first page marker beyond the cap — tokens delivered for page 4 or later
never enter the result. -/
theorem C5_page_cap (items : List PdfItem)
    (herr : ∀ m, PdfItem.err m ∉ items) :
    pdfReaderRun items = .ok (jsTrim (specFirstThreePages 0 items)) := by
  have := foldl_pdfStep_pending items herr initialParseState rfl
  simpa [pdfReaderRun, initialParseState] using this

/-- Witness stream for C5: a five-page document; the tokens of pages 4 and 5
are dropped. -/
def witnessStream : List PdfItem :=
  [.page 1, .text "First page text.".toList, .page 2,
   .text "Second page text.".toList, .page 3, .text "Third page text.".toList,
   .page 4, .text "Fourth page text.".toList, .page 5,
   .text "Fifth page text.".toList]

theorem C5_page_cap_witness :
    pdfReaderRun witnessStream =
      .ok "First page text. Second page text. Third page text.".toList := by
  have h := C5_page_cap witnessStream (fun m => by simp [witnessStream])
  rw [h]
  exact congrArg Except.ok (by decide)

/-! ## cleanAndProcessText (extract-pdf route, lines 78-91) -/

/-- First replace of `cleanAndProcessText`: `\s+` → `' '` — each maximal
whitespace run becomes a single space.  `inRun` records whether the scan
stands inside a whitespace run whose replacement was already emitted. -/
def collapseWsAux : Bool → List Char → List Char
  | _, [] => []
  | inRun, c :: cs =>
    if jsIsSpace c then
      if inRun then collapseWsAux true cs else ' ' :: collapseWsAux true cs
    else c :: collapseWsAux false cs

def collapseWs (l : List Char) : List Char := collapseWsAux false l

/-- Second replace: `\n+` → `'\n'` — each maximal newline run becomes a
single newline. -/
def collapseNlAux : Bool → List Char → List Char
  | _, [] => []
  | inRun, c :: cs =>
    if c = '\n' then
      if inRun then collapseNlAux true cs else '\n' :: collapseNlAux true cs
    else c :: collapseNlAux false cs

def collapseNl (l : List Char) : List Char := collapseNlAux false l

/-- Third replace: every character outside `[\w\s\.\,\!\?\-\(\)\[\]\:\"\']`
becomes a space. -/
def stripSpecial (l : List Char) : List Char :=
  l.map (fun c => if isAllowedChar c then c else ' ')

/-- Fourth replace: `\s+([\.!\?])` → `'$1'` — a whitespace run immediately
followed by sentence punctuation is deleted.  `buf` carries the pending
whitespace run (reversed); it is flushed before a non-punctuation character
and dropped before punctuation. -/
def stripWsBeforePunctAux (buf : List Char) : List Char → List Char
  | [] => buf.reverse
  | c :: cs =>
    if jsIsSpace c then stripWsBeforePunctAux (c :: buf) cs
    else if isPunct3 c then c :: stripWsBeforePunctAux [] cs
    else buf.reverse ++ c :: stripWsBeforePunctAux [] cs

def stripWsBeforePunct (l : List Char) : List Char :=
  stripWsBeforePunctAux [] l

/-- Fifth replace: `([\.!\?])\s*` → `'$1 '` — punctuation plus any following
whitespace becomes punctuation plus a single space.  `skipping` is true while
the scan stands inside whitespace already consumed by a replacement. -/
def spaceAfterPunctAux : Bool → List Char → List Char
  | _, [] => []
  | skipping, c :: cs =>
    if skipping && jsIsSpace c then spaceAfterPunctAux true cs
    else if isPunct3 c then c :: ' ' :: spaceAfterPunctAux true cs
    else c :: spaceAfterPunctAux false cs

def spaceAfterPunct (l : List Char) : List Char :=
  spaceAfterPunctAux false l

/-- `cleanAndProcessText`: the five `replace` steps followed by `trim`. -/
def cleanAndProcessText (text : List Char) : List Char :=
  jsTrim (spaceAfterPunct (stripWsBeforePunct (stripSpecial (collapseNl (collapseWs text)))))

example : cleanAndProcessText "  Hello   world.How are\n\nyou ?  ".toList =
    "Hello world. How are you?".toList := by decide
example : cleanAndProcessText "a@@b".toList = "a  b".toList := by decide

/-! ## OCR fallback (extract-pdf route, lines 10-75) -/

/-- Behaviour of one iteration of the page loop, everything inside the
per-page `try`: the conversion/recognition throws before any text is appended,
yields no image path, yields recognized text `s`, or yields `s` and then
throws (for example during image cleanup) after the append already happened. -/
inductive OcrPageOutcome where
  | failBefore
  | noPath
  | recognized (s : List Char)
  | recognizedThenFail (s : List Char)
deriving DecidableEq, Repr

/-- Behaviour of `fs.writeFileSync` on the temporary PDF: success, failure
with the file already created, or failure before the file existed. -/
inductive OcrWriteOutcome where
  | ok
  | failCreated
  | failNotCreated
deriving DecidableEq, Repr

/-- The file-system fact the claims track: whether the temporary PDF written
by the OCR fallback is on disk. -/
structure OcrFs where
  tempPdfExists : Bool
deriving DecidableEq, Repr

/-- One iteration of the page loop: recognized text is appended as
`pageText.trim() + '\n\n'` when `pageText && pageText.trim()` is truthy;
failing iterations leave the accumulator unchanged. -/
def ocrPageText (acc : List Char) (o : OcrPageOutcome) : List Char :=
  match o with
  | .failBefore => acc
  | .noPath => acc
  | .recognized s =>
    if jsTrim s ≠ [] then acc ++ jsTrim s ++ '\n' :: '\n' :: [] else acc
  | .recognizedThenFail s =>
    if jsTrim s ≠ [] then acc ++ jsTrim s ++ '\n' :: '\n' :: [] else acc

/-- The contribution one page outcome makes to the accumulated OCR text. -/
def ocrPageYield (o : OcrPageOutcome) : List Char :=
  match o with
  | .failBefore => []
  | .noPath => []
  | .recognized s => if jsTrim s ≠ [] then jsTrim s ++ '\n' :: '\n' :: [] else []
  | .recognizedThenFail s => if jsTrim s ≠ [] then jsTrim s ++ '\n' :: '\n' :: [] else []

/-- The `finally` block of `extractTextWithOCR`: delete the temporary PDF if
it exists. -/
def ocrFinally (fs : OcrFs) : OcrFs :=
  if fs.tempPdfExists then { tempPdfExists := false } else fs

/-- `extractTextWithOCR`: write the buffer to a temporary file, loop over
pages 1..3 with every per-page failure caught and skipped, and return the
trimmed accumulated text; an exception outside the per-page scope (the
temp-file write) surfaces as the `'Failed to extract text using OCR'` error.
The second component is the temp-file state after the `finally` block. -/
def extractTextWithOCR (write : OcrWriteOutcome) (pages : Nat → OcrPageOutcome) :
    Except (List Char) (List Char) × OcrFs :=
  let fsAfterWrite : OcrFs := ⟨write ≠ .failNotCreated⟩
  let body : Except (List Char) (List Char) :=
    match write with
    | .ok =>
      .ok (jsTrim ([1, 2, 3].foldl (fun acc n => ocrPageText acc (pages n)) []))
    | _ => .error "Failed to extract text using OCR".toList
  (body, ocrFinally fsAfterWrite)

/-! ## Document store (lib/database.ts as listed in the README) and the
extraction POST handler (extract-pdf route, lines 93-330) -/

structure DocRow where
  id : Nat
  filename : List Char
  original_filename : List Char
  file_size : Nat
  extracted_text : List Char
  page_count : Nat
  extracted_pages : Nat
deriving DecidableEq, Repr

/-- The `documents` table: rows in insertion (rowid) order plus the
autoincrement counter. -/
structure Db where
  rows : List DocRow
  nextId : Nat
deriving DecidableEq, Repr

/-- `documentQueries.findByFilename`:
`SELECT * FROM documents WHERE filename = ?` read through better-sqlite3's
`.get()` — the first matching row in rowid order.  There is no `ORDER BY`,
and the byte size is not part of the query. -/
def findByFilename (db : Db) (name : List Char) : Option DocRow :=
  db.rows.find? (fun r => r.filename = name)

/-- `documentQueries.insert.run(...)`: append a fresh row with the next
autoincrement id; returns the new database and `lastInsertRowid`. -/
def insertDocument (db : Db) (name orig : List Char) (size : Nat)
    (text : List Char) (pages extractedPages : Nat) : Db × Nat :=
  (⟨db.rows ++ [⟨db.nextId, name, orig, size, text, pages, extractedPages⟩],
    db.nextId + 1⟩, db.nextId)

/-- The JSON body of a successful extraction response.  `wasTruncated` is
`none` when the route's JSON omits that field (the cached branch does). -/
structure ExtractResponse where
  text : List Char
  pages : Nat
  extractedPages : Nat
  originalLength : Nat
  extractedLength : Nat
  wasTruncated : Option Bool
  filename : List Char
  documentId : Nat
  cached : Bool
deriving DecidableEq, Repr

inductive ApiResult where
  | ok (resp : ExtractResponse)
  | err (status : Nat) (msg : List Char)
deriving DecidableEq, Repr

/-- Outcome of one POST call: the HTTP result, the database afterwards, and
whether the text-layer extractor (`parseBuffer`) and the OCR fallback ran. -/
structure PostOutcome where
  result : ApiResult
  db : Db
  extractorInvoked : Bool
  ocrInvoked : Bool
deriving Repr

/-- The tail of the route after cleaning: truncate, store, respond
(`cached: false`, `wasTruncated` present). -/
def finishExtract (db : Db) (name : List Char) (size : Nat) (totalPages : Nat)
    (extractedText : List Char) (usedOcr : Bool) : PostOutcome :=
  let cleanedText := cleanAndProcessText extractedText
  let originalLength := cleanedText.length
  let tr := truncateForTranscreation cleanedText
  let extractedPages := if totalPages > 3 then 3 else totalPages
  let ins := insertDocument db name name size tr.1 totalPages extractedPages
  ⟨.ok ⟨tr.1, totalPages, extractedPages, originalLength, tr.1.length,
    some tr.2, name, ins.2, false⟩, ins.1, true, usedOcr⟩

/-- The extraction path on a cache miss: validate the `%PDF` header, run the
text-layer parser, fall back to OCR below the 50-character threshold, reject
when even OCR yields nothing, otherwise clean/truncate/store.  Parse and OCR
errors reach the route's outer catch; no claim depends on its message
sniffing, so those responses are modelled by their status alone. -/
def extractPostUncached (db : Db) (name : List Char) (size : Nat)
    (headerOk : Bool) (items : List PdfItem) (write : OcrWriteOutcome)
    (pages : Nat → OcrPageOutcome) : PostOutcome :=
  if ¬ headerOk then
    ⟨.err 400 "Invalid PDF file format. Please ensure you uploaded a valid PDF.".toList,
      db, false, false⟩
  else
    match pdfReaderRun items with
    | .error _ =>
      ⟨.err 500 "Failed to process PDF. Please ensure the PDF contains selectable text and try again.".toList,
        db, true, false⟩
    | .ok textLayer =>
      if (jsTrim textLayer).length < 50 then
        match (extractTextWithOCR write pages).1 with
        | .error _ =>
          ⟨.err 500 "Failed to process PDF. Please ensure the PDF contains selectable text and try again.".toList,
            db, true, true⟩
        | .ok ocrText =>
          if (jsTrim ocrText).length = 0 then
            ⟨.err 400 "Could not extract text from PDF. The document may be empty, corrupted, or an unsupported format.".toList,
              db, true, true⟩
          else
            let out := finishExtract db name size (pdfReaderPages items) ocrText true
            ⟨out.result, out.db, true, true⟩
      else
        finishExtract db name size (pdfReaderPages items) textLayer false

/-- The POST handler of the extraction route from its validation gates on:
file-size gates, then the document cache keyed by the filename lookup plus
the route's size comparison, then the uncached extraction path.  The upload is
abstracted as its name, byte size, whether the byte buffer carries the `%PDF`
magic, the item stream the text-layer parser delivers, and the OCR
environment's behaviour. -/
def extractPost (db : Db) (name : List Char) (size : Nat) (headerOk : Bool)
    (items : List PdfItem) (write : OcrWriteOutcome)
    (pages : Nat → OcrPageOutcome) : PostOutcome :=
  if size > 10 * 1024 * 1024 then
    ⟨.err 400 "File size must be less than 10MB".toList, db, false, false⟩
  else if size < 100 then
    ⟨.err 400 "File appears to be corrupted or empty".toList, db, false, false⟩
  else
    match findByFilename db name with
    | some doc =>
      if doc.file_size = size then
        ⟨.ok ⟨doc.extracted_text, doc.page_count, doc.extracted_pages,
          doc.extracted_text.length, doc.extracted_text.length, none,
          doc.original_filename, doc.id, true⟩, db, false, false⟩
      else extractPostUncached db name size headerOk items write pages
    | none => extractPostUncached db name size headerOk items write pages

/-- The cache test the route performs:
`existingDoc && existingDoc.file_size === file.size`. -/
def cacheHit (db : Db) (name : List Char) (size : Nat) : Option DocRow :=
  match findByFilename db name with
  | some doc => if doc.file_size = size then some doc else none
  | none => none

/-- C8: every exit path of the OCR fallback — the normal return as well as
every thrown error — leaves the temporary PDF file deleted. -/
theorem C8_temp_file_deleted (write : OcrWriteOutcome)
    (pages : Nat → OcrPageOutcome) :
    (extractTextWithOCR write pages).2.tempPdfExists = false := by
  cases write <;> simp [extractTextWithOCR, ocrFinally]

theorem extractPost_of_cacheMiss (db : Db) (name : List Char) (size : Nat)
    (headerOk : Bool) (items : List PdfItem) (write : OcrWriteOutcome)
    (pages : Nat → OcrPageOutcome)
    (h1 : ¬ size > 10 * 1024 * 1024) (h2 : ¬ size < 100)
    (hm : cacheHit db name size = none) :
    extractPost db name size headerOk items write pages =
      extractPostUncached db name size headerOk items write pages := by
  cases hfind : findByFilename db name with
  | none => simp only [extractPost, if_neg h1, if_neg h2, hfind]
  | some doc =>
    have hne : ¬ doc.file_size = size := by
      intro he
      simp only [cacheHit, hfind, if_pos he] at hm
      exact Option.noConfusion hm
    simp only [extractPost, if_neg h1, if_neg h2, hfind, if_neg hne]

theorem extractPost_of_cacheHit (db : Db) (name : List Char) (size : Nat)
    (headerOk : Bool) (items : List PdfItem) (write : OcrWriteOutcome)
    (pages : Nat → OcrPageOutcome) (d : DocRow)
    (h1 : ¬ size > 10 * 1024 * 1024) (h2 : ¬ size < 100)
    (hm : cacheHit db name size = some d) :
    extractPost db name size headerOk items write pages =
      ⟨.ok ⟨d.extracted_text, d.page_count, d.extracted_pages,
        d.extracted_text.length, d.extracted_text.length, none,
        d.original_filename, d.id, true⟩, db, false, false⟩ := by
  cases hfind : findByFilename db name with
  | none =>
    simp only [cacheHit, hfind] at hm
    exact Option.noConfusion hm
  | some doc =>
    by_cases he : doc.file_size = size
    · simp only [cacheHit, hfind, if_pos he, Option.some.injEq] at hm
      subst hm
      simp only [extractPost, if_neg h1, if_neg h2, hfind, if_pos he]
    · simp only [cacheHit, hfind, if_neg he] at hm
      exact Option.noConfusion hm

theorem finishExtract_result (db : Db) (name : List Char) (size tp : Nat)
    (src : List Char) (u : Bool) :
    finishExtract db name size tp src u =
      ⟨.ok ⟨(truncateForTranscreation (cleanAndProcessText src)).1, tp,
          (if tp > 3 then 3 else tp), (cleanAndProcessText src).length,
          (truncateForTranscreation (cleanAndProcessText src)).1.length,
          some (truncateForTranscreation (cleanAndProcessText src)).2, name,
          db.nextId, false⟩,
        ⟨db.rows ++ [⟨db.nextId, name, name, size,
          (truncateForTranscreation (cleanAndProcessText src)).1, tp,
          if tp > 3 then 3 else tp⟩], db.nextId + 1⟩, true, u⟩ := rfl

theorem extractPostUncached_headerFail {db : Db} {name : List Char}
    {size : Nat} {headerOk : Bool} {items : List PdfItem}
    {write : OcrWriteOutcome} {pages : Nat → OcrPageOutcome}
    (hh : headerOk = false) :
    extractPostUncached db name size headerOk items write pages =
      ⟨.err 400 "Invalid PDF file format. Please ensure you uploaded a valid PDF.".toList,
        db, false, false⟩ := by
  subst hh
  rfl

theorem extractPostUncached_parseError {db : Db} {name : List Char}
    {size : Nat} {items : List PdfItem} {write : OcrWriteOutcome}
    {pages : Nat → OcrPageOutcome} {m : List Char}
    (hp : pdfReaderRun items = .error m) :
    extractPostUncached db name size true items write pages =
      ⟨.err 500 "Failed to process PDF. Please ensure the PDF contains selectable text and try again.".toList,
        db, true, false⟩ := by
  simp only [extractPostUncached, hp]
  rfl

theorem extractPostUncached_ocrError {db : Db} {name : List Char}
    {size : Nat} {items : List PdfItem} {write : OcrWriteOutcome}
    {pages : Nat → OcrPageOutcome} {t m : List Char}
    (hp : pdfReaderRun items = .ok t) (hlt : (jsTrim t).length < 50)
    (ho : (extractTextWithOCR write pages).1 = .error m) :
    extractPostUncached db name size true items write pages =
      ⟨.err 500 "Failed to process PDF. Please ensure the PDF contains selectable text and try again.".toList,
        db, true, true⟩ := by
  simp only [extractPostUncached, hp, if_pos hlt, ho]
  rfl

theorem extractPostUncached_ocrEmpty {db : Db} {name : List Char}
    {size : Nat} {items : List PdfItem} {write : OcrWriteOutcome}
    {pages : Nat → OcrPageOutcome} {t ocrText : List Char}
    (hp : pdfReaderRun items = .ok t) (hlt : (jsTrim t).length < 50)
    (ho : (extractTextWithOCR write pages).1 = .ok ocrText)
    (hz : (jsTrim ocrText).length = 0) :
    extractPostUncached db name size true items write pages =
      ⟨.err 400 "Could not extract text from PDF. The document may be empty, corrupted, or an unsupported format.".toList,
        db, true, true⟩ := by
  simp only [extractPostUncached, hp, if_pos hlt, ho, if_pos hz]
  rfl

theorem extractPostUncached_ocrGood {db : Db} {name : List Char}
    {size : Nat} {items : List PdfItem} {write : OcrWriteOutcome}
    {pages : Nat → OcrPageOutcome} {t ocrText : List Char}
    (hp : pdfReaderRun items = .ok t) (hlt : (jsTrim t).length < 50)
    (ho : (extractTextWithOCR write pages).1 = .ok ocrText)
    (hz : ¬ (jsTrim ocrText).length = 0) :
    extractPostUncached db name size true items write pages =
      ⟨(finishExtract db name size (pdfReaderPages items) ocrText true).result,
        (finishExtract db name size (pdfReaderPages items) ocrText true).db,
        true, true⟩ := by
  simp only [extractPostUncached, hp, if_pos hlt, ho, if_neg hz]
  rfl

theorem extractPostUncached_noOcr {db : Db} {name : List Char}
    {size : Nat} {items : List PdfItem} {write : OcrWriteOutcome}
    {pages : Nat → OcrPageOutcome} {t : List Char}
    (hp : pdfReaderRun items = .ok t) (hlt : ¬ (jsTrim t).length < 50) :
    extractPostUncached db name size true items write pages =
      finishExtract db name size (pdfReaderPages items) t false := by
  simp only [extractPostUncached, hp, if_neg hlt]
  rfl

theorem extractPostUncached_ok_shape {db : Db} {name : List Char} {size : Nat}
    {items : List PdfItem} {write : OcrWriteOutcome}
    {pages : Nat → OcrPageOutcome} {r : ExtractResponse}
    (h : (extractPostUncached db name size true items write pages).result = .ok r) :
    r.documentId = db.nextId ∧ r.cached = false ∧
      (extractPostUncached db name size true items write pages).db =
        ⟨db.rows ++ [⟨db.nextId, name, name, size, r.text,
          (pdfReaderPages items),
          if (pdfReaderPages items) > 3 then 3 else (pdfReaderPages items)⟩],
          db.nextId + 1⟩ := by
  cases hp : pdfReaderRun items with
  | error m =>
    rw [extractPostUncached_parseError hp] at h
    exact absurd h (by simp)
  | ok t =>
    by_cases hlt : (jsTrim t).length < 50
    · cases ho : (extractTextWithOCR write pages).1 with
      | error m =>
        rw [extractPostUncached_ocrError hp hlt ho] at h
        exact absurd h (by simp)
      | ok ocrText =>
        by_cases hz : (jsTrim ocrText).length = 0
        · rw [extractPostUncached_ocrEmpty hp hlt ho hz] at h
          exact absurd h (by simp)
        · rw [extractPostUncached_ocrGood hp hlt ho hz] at h ⊢
          rw [finishExtract_result] at h ⊢
          simp only [ApiResult.ok.injEq] at h
          subst h
          exact ⟨rfl, rfl, rfl⟩
    · rw [extractPostUncached_noOcr hp hlt] at h ⊢
      rw [finishExtract_result] at h ⊢
      simp only [ApiResult.ok.injEq] at h
      subst h
      exact ⟨rfl, rfl, rfl⟩

theorem extractPost_size_gates {db : Db} {name : List Char} {size : Nat}
    {headerOk : Bool} {items : List PdfItem} {write : OcrWriteOutcome}
    {pages : Nat → OcrPageOutcome} {r : ExtractResponse}
    (h : (extractPost db name size headerOk items write pages).result = .ok r) :
    ¬ size > 10 * 1024 * 1024 ∧ ¬ size < 100 := by
  by_cases h1 : size > 10 * 1024 * 1024
  · unfold extractPost at h
    rw [if_pos h1] at h
    exact absurd h (by simp)
  · by_cases h2 : size < 100
    · unfold extractPost at h
      rw [if_neg h1, if_pos h2] at h
      exact absurd h (by simp)
    · exact ⟨h1, h2⟩

/-- C9: a cache-hit extraction call reports `originalLength` equal to
`extractedLength` (both the stored text's length), returns the stored text
with `cached = true`, and its response carries no `wasTruncated` field. -/
theorem C9_cached_response_lengths (db : Db) (name : List Char) (size : Nat)
    (headerOk : Bool) (items : List PdfItem) (write : OcrWriteOutcome)
    (pages : Nat → OcrPageOutcome) (d : DocRow)
    (h1 : ¬ size > 10 * 1024 * 1024) (h2 : ¬ size < 100)
    (hm : cacheHit db name size = some d) :
    ∃ r, (extractPost db name size headerOk items write pages).result = .ok r ∧
      r.originalLength = d.extracted_text.length ∧
      r.extractedLength = d.extracted_text.length ∧
      r.wasTruncated = none ∧ r.text = d.extracted_text ∧ r.cached = true := by
  rw [extractPost_of_cacheHit db name size headerOk items write pages d h1 h2 hm]
  exact ⟨_, rfl, rfl, rfl, rfl, rfl, rfl⟩

/-- A one-row database used by witnesses of the cached path. -/
def cachedDb : Db :=
  ⟨[⟨1, "doc.pdf".toList, "doc.pdf".toList, 5000, "Stored text.".toList, 2, 2⟩], 2⟩

/-- Witness for C9: a concrete cache hit. -/
theorem C9_cached_response_lengths_witness :
    ∃ r, (extractPost cachedDb "doc.pdf".toList 5000 true [] .ok
        (fun _ => .noPath)).result = .ok r ∧
      r.originalLength = "Stored text.".toList.length ∧
      r.extractedLength = "Stored text.".toList.length ∧
      r.wasTruncated = none ∧ r.text = "Stored text.".toList ∧ r.cached = true :=
  C9_cached_response_lengths cachedDb "doc.pdf".toList 5000 true [] .ok
    (fun _ => .noPath)
    ⟨1, "doc.pdf".toList, "doc.pdf".toList, 5000, "Stored text.".toList, 2, 2⟩
    (by omega) (by omega) rfl

/-- C4: on every extraction run that reaches the text layer (validations pass,
cache miss, parse succeeds), the OCR fallback runs if and only if the trimmed
text-layer output is shorter than 50 characters. -/
theorem C4_ocr_threshold (db : Db) (name : List Char) (size : Nat)
    (items : List PdfItem) (write : OcrWriteOutcome)
    (pages : Nat → OcrPageOutcome) (t : List Char)
    (h1 : ¬ size > 10 * 1024 * 1024) (h2 : ¬ size < 100)
    (hm : cacheHit db name size = none)
    (hp : pdfReaderRun items = .ok t) :
    ((extractPost db name size true items write pages).ocrInvoked = true ↔
      (jsTrim t).length < 50) := by
  rw [extractPost_of_cacheMiss db name size true items write pages h1 h2 hm]
  by_cases hlt : (jsTrim t).length < 50
  · cases ho : (extractTextWithOCR write pages).1 with
    | error m =>
      rw [extractPostUncached_ocrError hp hlt ho]
      simpa using hlt
    | ok ocrText =>
      by_cases hz : (jsTrim ocrText).length = 0
      · rw [extractPostUncached_ocrEmpty hp hlt ho hz]
        simpa using hlt
      · rw [extractPostUncached_ocrGood hp hlt ho hz]
        simpa using hlt
  · rw [extractPostUncached_noOcr hp hlt, finishExtract_result]
    simpa using hlt

/-- Witness for C4: a concrete short text layer triggers OCR. -/
theorem C4_ocr_threshold_witness :
    (extractPost ⟨[], 1⟩ "w.pdf".toList 150 true [.page 1, .text "hi".toList]
        .ok (fun _ => .recognized "recovered".toList)).ocrInvoked = true :=
  (C4_ocr_threshold ⟨[], 1⟩ "w.pdf".toList 150 [.page 1, .text "hi".toList]
    .ok (fun _ => .recognized "recovered".toList) "hi".toList
    (by omega) (by omega) rfl rfl).mpr (by decide)

theorem ocrPageText_eq_append (acc : List Char) (o : OcrPageOutcome) :
    ocrPageText acc o = acc ++ ocrPageYield o := by
  cases o with
  | failBefore => simp [ocrPageText, ocrPageYield]
  | noPath => simp [ocrPageText, ocrPageYield]
  | recognized s =>
    by_cases h : jsTrim s ≠ []
    · simp [ocrPageText, ocrPageYield, h]
    · simp [ocrPageText, ocrPageYield, h]
  | recognizedThenFail s =>
    by_cases h : jsTrim s ≠ []
    · simp [ocrPageText, ocrPageYield, h]
    · simp [ocrPageText, ocrPageYield, h]

/-- C7: the OCR fallback errors exactly when the pipeline fails outside the
per-page try scope (the temp-file write); per-page failures are skipped — a
page that fails contributes exactly what a silently skipped page contributes,
without aborting the loop; when no page produces text the fallback returns the
empty string rather than an error; and the caller then reports the definite
400 extraction failure. -/
theorem C7_ocr_error_handling :
    (∀ (write : OcrWriteOutcome) (pages : Nat → OcrPageOutcome),
      (∃ m, (extractTextWithOCR write pages).1 = .error m) ↔ write ≠ .ok) ∧
    (∀ (pages : Nat → OcrPageOutcome) (j : Nat),
      (extractTextWithOCR .ok (Function.update pages j .failBefore)).1 =
        (extractTextWithOCR .ok (Function.update pages j .noPath)).1) ∧
    (∀ pages : Nat → OcrPageOutcome, (∀ n, ocrPageYield (pages n) = []) →
      (extractTextWithOCR .ok pages).1 = .ok []) ∧
    (∀ (db : Db) (name : List Char) (size : Nat) (items : List PdfItem)
        (write : OcrWriteOutcome) (pages : Nat → OcrPageOutcome) (t : List Char),
      ¬ size > 10 * 1024 * 1024 → ¬ size < 100 →
      cacheHit db name size = none →
      pdfReaderRun items = .ok t → (jsTrim t).length < 50 →
      (extractTextWithOCR write pages).1 = .ok [] →
      (extractPost db name size true items write pages).result =
        .err 400 "Could not extract text from PDF. The document may be empty, corrupted, or an unsupported format.".toList) := by
  refine ⟨?_, ?_, ?_, ?_⟩
  · intro write pages
    cases write <;> simp [extractTextWithOCR]
  · intro pages j
    have hpt : ∀ (acc : List Char) (n : Nat),
        ocrPageText acc (Function.update pages j .failBefore n) =
          ocrPageText acc (Function.update pages j .noPath n) := by
      intro acc n
      by_cases hn : n = j
      · subst hn
        rw [Function.update_same, Function.update_same]
        rfl
      · rw [Function.update_noteq hn, Function.update_noteq hn]
    simp only [extractTextWithOCR, List.foldl_cons, List.foldl_nil]
    rw [hpt, hpt, hpt]
  · intro pages hy
    have hpt : ∀ (acc : List Char) (n : Nat), ocrPageText acc (pages n) = acc := by
      intro acc n
      rw [ocrPageText_eq_append, hy n, List.append_nil]
    simp only [extractTextWithOCR, List.foldl_cons, List.foldl_nil]
    rw [hpt, hpt, hpt]
    rfl
  · intro db name size items write pages t h1 h2 hm hp hlt ho
    rw [extractPost_of_cacheMiss db name size true items write pages h1 h2 hm]
    rw [extractPostUncached_ocrEmpty hp hlt ho rfl]

/-- Witness for C7 at concrete OCR environments. -/
theorem C7_ocr_error_handling_witness :
    (∃ m, (extractTextWithOCR .failCreated (fun _ => .noPath)).1 = .error m) ∧
    (extractTextWithOCR .ok
        (Function.update (fun _ => OcrPageOutcome.recognized "ocr text".toList)
          2 .failBefore)).1 =
      (extractTextWithOCR .ok
        (Function.update (fun _ => OcrPageOutcome.recognized "ocr text".toList)
          2 .noPath)).1 ∧
    (extractTextWithOCR .ok (fun _ => .failBefore)).1 = .ok [] ∧
    (extractPost ⟨[], 1⟩ "i.pdf".toList 150 true [.page 1, .text "hi".toList]
        .ok (fun _ => .noPath)).result =
      .err 400 "Could not extract text from PDF. The document may be empty, corrupted, or an unsupported format.".toList := by
  refine ⟨?_, ?_, ?_, ?_⟩
  · exact (C7_ocr_error_handling.1 .failCreated (fun _ => .noPath)).mpr (by decide)
  · exact C7_ocr_error_handling.2.1
      (fun _ => OcrPageOutcome.recognized "ocr text".toList) 2
  · exact C7_ocr_error_handling.2.2.1 (fun _ => .failBefore) (fun n => rfl)
  · exact C7_ocr_error_handling.2.2.2 ⟨[], 1⟩ "i.pdf".toList 150
      [.page 1, .text "hi".toList] .ok (fun _ => .noPath) "hi".toList
      (by omega) (by omega) rfl rfl (by decide) rfl

/-! ## C3: the document cache -/

/-- C3 as stated: for every pair of extraction calls with identical
(filename, byte size), whenever the first call stored a document
(`cached = false`), the second call returns that stored text with
`cached = true` and runs neither the text-layer extractor nor the OCR
fallback. -/
def documentCacheClaim : Prop :=
  ∀ (db : Db) (name : List Char) (size : Nat) (headerOk : Bool)
    (items : List PdfItem) (write : OcrWriteOutcome)
    (pages : Nat → OcrPageOutcome) (headerOk₂ : Bool) (items₂ : List PdfItem)
    (write₂ : OcrWriteOutcome) (pages₂ : Nat → OcrPageOutcome)
    (r : ExtractResponse),
    (extractPost db name size headerOk items write pages).result = .ok r →
    r.cached = false →
    (∃ r₂, (extractPost (extractPost db name size headerOk items write pages).db
        name size headerOk₂ items₂ write₂ pages₂).result = .ok r₂ ∧
      r₂.text = r.text ∧ r₂.cached = true) ∧
    (extractPost (extractPost db name size headerOk items write pages).db
        name size headerOk₂ items₂ write₂ pages₂).extractorInvoked = false ∧
    (extractPost (extractPost db name size headerOk items write pages).db
        name size headerOk₂ items₂ write₂ pages₂).ocrInvoked = false

/-- A database holding an older document with the same filename but a
different byte size. -/
def staleDb : Db :=
  ⟨[⟨1, "a.pdf".toList, "a.pdf".toList, 5000, "old stored text".toList, 2, 2⟩], 2⟩

/-- A text-layer stream yielding 60 characters (no OCR, no truncation). -/
def plainStream : List PdfItem :=
  [.page 1, .text (List.replicate 60 'x')]

/-- Counterexample to C3: with an older row sharing the filename at a
different byte size, `findByFilename` (no `ORDER BY`, `.get()` = first row in
rowid order) keeps returning the older row, its size comparison fails, and the
second call re-extracts (`cached = false`) instead of hitting the cache. -/
theorem C3_cache_counterexample : ¬ documentCacheClaim := by
  intro h
  have := h staleDb "a.pdf".toList 6000 true plainStream .ok (fun _ => .noPath)
    true plainStream .ok (fun _ => .noPath)
    ⟨List.replicate 60 'x', 1, 1, 60, 60, some false, "a.pdf".toList, 2, false⟩
    (by decide) rfl
  exact absurd this.2.1 (by decide)

/-- C3 amended: the cache-hit guarantee holds provided no pre-existing row
shares the upload's filename (then the filename lookup's first match is the
row the first call stored, and its byte size matches exactly); moreover the
lookup requires the byte size to match exactly — the same filename at any
other valid size misses the cache. -/
theorem C3_cache_amended (db : Db) (name : List Char) (size : Nat)
    (headerOk : Bool) (items : List PdfItem) (write : OcrWriteOutcome)
    (pages : Nat → OcrPageOutcome) (headerOk₂ : Bool) (items₂ : List PdfItem)
    (write₂ : OcrWriteOutcome) (pages₂ : Nat → OcrPageOutcome)
    (r : ExtractResponse)
    (hfresh : ∀ row ∈ db.rows, row.filename ≠ name)
    (hres : (extractPost db name size headerOk items write pages).result = .ok r)
    (hcf : r.cached = false) :
    (∃ r₂, (extractPost (extractPost db name size headerOk items write pages).db
        name size headerOk₂ items₂ write₂ pages₂).result = .ok r₂ ∧
      r₂.text = r.text ∧ r₂.cached = true) ∧
    (extractPost (extractPost db name size headerOk items write pages).db
        name size headerOk₂ items₂ write₂ pages₂).extractorInvoked = false ∧
    (extractPost (extractPost db name size headerOk items write pages).db
        name size headerOk₂ items₂ write₂ pages₂).ocrInvoked = false ∧
    (extractPost (extractPost db name size headerOk items write pages).db
        name size headerOk₂ items₂ write₂ pages₂).db =
      (extractPost db name size headerOk items write pages).db ∧
    (∀ size₂, size₂ ≠ size →
      cacheHit (extractPost db name size headerOk items write pages).db
        name size₂ = none) := by
  obtain ⟨h1, h2⟩ := extractPost_size_gates hres
  have hmiss : cacheHit db name size = none := by
    have hfind : findByFilename db name = none :=
      List.find?_eq_none.mpr (fun row hrow => by
        simp [hfresh row hrow])
    simp [cacheHit, hfind]
  rw [extractPost_of_cacheMiss db name size headerOk items write pages h1 h2
    hmiss] at hres ⊢
  have hh : headerOk = true := by
    cases hh : headerOk
    · rw [extractPostUncached_headerFail hh] at hres
      exact absurd hres (by simp)
    · rfl
  subst hh
  obtain ⟨hid, hcc, hdb⟩ := extractPostUncached_ok_shape hres
  rw [hdb]
  have hfind₂ :
      findByFilename ⟨db.rows ++ [⟨db.nextId, name, name, size, r.text,
        pdfReaderPages items,
        if pdfReaderPages items > 3 then 3 else pdfReaderPages items⟩],
        db.nextId + 1⟩ name =
      some ⟨db.nextId, name, name, size, r.text, pdfReaderPages items,
        if pdfReaderPages items > 3 then 3 else pdfReaderPages items⟩ := by
    unfold findByFilename
    rw [List.find?_append]
    have hnone : db.rows.find? (fun row => row.filename = name) = none :=
      List.find?_eq_none.mpr (fun row hrow => by simp [hfresh row hrow])
    rw [hnone]
    simp
  have hhit : cacheHit ⟨db.rows ++ [⟨db.nextId, name, name, size, r.text,
      pdfReaderPages items,
      if pdfReaderPages items > 3 then 3 else pdfReaderPages items⟩],
      db.nextId + 1⟩ name size =
      some ⟨db.nextId, name, name, size, r.text, pdfReaderPages items,
        if pdfReaderPages items > 3 then 3 else pdfReaderPages items⟩ := by
    simp [cacheHit, hfind₂]
  rw [extractPost_of_cacheHit _ name size headerOk₂ items₂ write₂ pages₂ _
    h1 h2 hhit]
  refine ⟨⟨_, rfl, rfl, rfl⟩, rfl, rfl, rfl, ?_⟩
  intro size₂ hne
  simp [cacheHit, hfind₂, hne]
  omega

/-- Witness for the amended C3: a fresh-filename upload followed by the
identical upload. -/
theorem C3_cache_amended_witness :
    (∃ r₂, (extractPost (extractPost ⟨[], 1⟩ "fresh.pdf".toList 150 true
        plainStream .ok (fun _ => .noPath)).db
        "fresh.pdf".toList 150 true plainStream .ok (fun _ => .noPath)).result =
        .ok r₂ ∧
      r₂.text = List.replicate 60 'x' ∧ r₂.cached = true) ∧
    (extractPost (extractPost ⟨[], 1⟩ "fresh.pdf".toList 150 true
        plainStream .ok (fun _ => .noPath)).db
        "fresh.pdf".toList 150 true plainStream .ok
        (fun _ => .noPath)).extractorInvoked = false := by
  have h := C3_cache_amended ⟨[], 1⟩ "fresh.pdf".toList 150 true plainStream
    .ok (fun _ => .noPath) true plainStream .ok (fun _ => .noPath)
    ⟨List.replicate 60 'x', 1, 1, 60, 60, some false, "fresh.pdf".toList, 1, false⟩
    (by simp) (by decide) rfl
  exact ⟨h.1, h.2.1⟩

/-! ## C2: idempotence of the normalizer

`cleanAndProcessText` is *not* idempotent: its first `replace` collapses
whitespace runs before the third `replace` turns disallowed characters into
spaces, so two adjacent disallowed characters become two adjacent spaces that
survive the remaining steps; a second application collapses them.  On inputs
made only of allow-listed characters the function is idempotent; the rest of
this section proves that. -/

/-- C2 as stated: applying `cleanAndProcessText` twice always equals applying
it once. -/
def cleanIdempotentClaim : Prop :=
  ∀ s : List Char,
    cleanAndProcessText (cleanAndProcessText s) = cleanAndProcessText s

/-- Counterexample to C2: `"a@@b"` normalizes to `"a  b"` (two spaces), which
normalizes further to `"a b"`. -/
theorem C2_idempotence_counterexample : ¬ cleanIdempotentClaim := by
  intro h
  exact absurd (h "a@@b".toList) (by decide)

/-- Trimmed normalizer outputs: no leading or trailing whitespace, every
whitespace character a single `' '`, every punctuation mark followed by one
space (unless it ends the text), and a space preceding punctuation only right
after punctuation. -/
def normCore : List Char → Bool
  | [] => true
  | [c] => !(jsIsSpace c)
  | c :: d :: rest =>
    if isPunct3 c then
      d = ' ' && !rest.isEmpty && normCore rest
    else if jsIsSpace c then false
    else if jsIsSpace d then
      d = ' ' &&
        (match rest with
         | [] => false
         | e :: _ => !(jsIsSpace e) && !(isPunct3 e)) &&
        normCore rest
    else normCore (d :: rest)

/-- Like `normCore` but tolerating a single trailing space (the shape of the
spacing fixups' output before `trim`). -/
def normLax : List Char → Bool
  | [] => true
  | [c] => !(jsIsSpace c)
  | c :: d :: rest =>
    if isPunct3 c then
      d = ' ' && normLax rest
    else if jsIsSpace c then false
    else if jsIsSpace d then
      d = ' ' &&
        (match rest with
         | [] => true
         | e :: _ => !(jsIsSpace e) && !(isPunct3 e)) &&
        normLax rest
    else normLax (d :: rest)

/-- Every whitespace character is a plain space. -/
def wsIsSpace (l : List Char) : Prop :=
  ∀ c ∈ l, jsIsSpace c = true → c = ' '

/-- No two adjacent whitespace characters. -/
def noAdjWs (l : List Char) : Prop :=
  l.Chain' (fun a b => ¬(jsIsSpace a = true ∧ jsIsSpace b = true))

/-- The head, when present, is not whitespace. -/
def headNotWs : List Char → Prop
  | [] => True
  | c :: _ => jsIsSpace c = false

theorem punct_not_ws {c : Char} (h : isPunct3 c = true) : jsIsSpace c = false := by
  simp only [isPunct3, Bool.or_eq_true, decide_eq_true_eq] at h
  rcases h with (h | h) | h <;> subst h <;> decide

theorem ws_not_punct {c : Char} (h : jsIsSpace c = true) : isPunct3 c = false := by
  cases hp : isPunct3 c
  · rfl
  · rw [punct_not_ws hp] at h
    exact Bool.noConfusion h

/-- The composition of the two spacing fixups (the fourth and fifth
`replace` of `cleanAndProcessText`). -/
def spacingFixups (l : List Char) : List Char :=
  spaceAfterPunct (stripWsBeforePunct l)

theorem cleanAndProcessText_eq (s : List Char) :
    cleanAndProcessText s =
      jsTrim (spacingFixups (stripSpecial (collapseNl (collapseWs s)))) := rfl

theorem stripAux_nil (buf : List Char) :
    stripWsBeforePunctAux buf [] = buf.reverse := rfl

theorem stripAux_ws {c : Char} (h : jsIsSpace c = true) (buf cs) :
    stripWsBeforePunctAux buf (c :: cs) = stripWsBeforePunctAux (c :: buf) cs := by
  simp [stripWsBeforePunctAux, h]

theorem stripAux_punct {c : Char} (h : isPunct3 c = true) (buf cs) :
    stripWsBeforePunctAux buf (c :: cs) = c :: stripWsBeforePunctAux [] cs := by
  simp [stripWsBeforePunctAux, punct_not_ws h, h]

theorem stripAux_other {c : Char} (hw : jsIsSpace c = false)
    (hp : isPunct3 c = false) (buf cs) :
    stripWsBeforePunctAux buf (c :: cs) =
      buf.reverse ++ c :: stripWsBeforePunctAux [] cs := by
  simp [stripWsBeforePunctAux, hw, hp]

theorem stripAux_head {c : Char} (h : jsIsSpace c = false) (cs : List Char) :
    stripWsBeforePunctAux [] (c :: cs) = c :: stripWsBeforePunctAux [] cs := by
  cases hp : isPunct3 c
  · rw [stripAux_other h hp]
    rfl
  · rw [stripAux_punct hp]

theorem spaceAux_skip {c : Char} (h : jsIsSpace c = true) (cs : List Char) :
    spaceAfterPunctAux true (c :: cs) = spaceAfterPunctAux true cs := by
  simp [spaceAfterPunctAux, h, ws_not_punct h]

theorem spaceAux_punct {c : Char} (h : isPunct3 c = true) (b : Bool) (cs : List Char) :
    spaceAfterPunctAux b (c :: cs) = c :: ' ' :: spaceAfterPunctAux true cs := by
  cases b <;> simp [spaceAfterPunctAux, h, punct_not_ws h]

theorem spaceAux_other {c : Char} (hw : jsIsSpace c = false)
    (hp : isPunct3 c = false) (b : Bool) (cs : List Char) :
    spaceAfterPunctAux b (c :: cs) = c :: spaceAfterPunctAux false cs := by
  cases b <;> simp [spaceAfterPunctAux, hw, hp]

theorem spaceAux_ws_notSkipping {c : Char} (h : jsIsSpace c = true) (cs : List Char) :
    spaceAfterPunctAux false (c :: cs) = c :: spaceAfterPunctAux false cs := by
  simp [spaceAfterPunctAux, h, ws_not_punct h]

theorem spaceAux_state {l : List Char} (h : headNotWs l) :
    spaceAfterPunctAux true l = spaceAfterPunctAux false l := by
  cases l with
  | nil => rfl
  | cons c cs =>
    simp only [headNotWs] at h
    cases hp : isPunct3 c
    · rw [spaceAux_other h hp, spaceAux_other h hp]
    · rw [spaceAux_punct hp, spaceAux_punct hp]

theorem collapseWsAux_ws_true {c : Char} (h : jsIsSpace c = true) (cs : List Char) :
    collapseWsAux true (c :: cs) = collapseWsAux true cs := by
  simp [collapseWsAux, h]

theorem collapseWsAux_ws_false {c : Char} (h : jsIsSpace c = true) (cs : List Char) :
    collapseWsAux false (c :: cs) = ' ' :: collapseWsAux true cs := by
  simp [collapseWsAux, h]

theorem collapseWsAux_nonws {c : Char} (h : jsIsSpace c = false) (b : Bool)
    (cs : List Char) :
    collapseWsAux b (c :: cs) = c :: collapseWsAux false cs := by
  cases b <;> simp [collapseWsAux, h]

theorem collapseNlAux_other {c : Char} (h : ¬ c = '\n') (b : Bool)
    (cs : List Char) :
    collapseNlAux b (c :: cs) = c :: collapseNlAux false cs := by
  cases b <;> simp [collapseNlAux, h]

theorem wsIsSpace_collapseWsAux : ∀ (l : List Char) (b : Bool),
    wsIsSpace (collapseWsAux b l) := by
  intro l
  induction l with
  | nil => intro b c hc; cases hc
  | cons c cs ih =>
    intro b x hx hws
    cases hw : jsIsSpace c
    · rw [collapseWsAux_nonws hw] at hx
      rcases List.mem_cons.mp hx with h | h
      · subst h; rw [hw] at hws; exact Bool.noConfusion hws
      · exact ih false x h hws
    · cases b with
      | true =>
        rw [collapseWsAux_ws_true hw] at hx
        exact ih true x hx hws
      | false =>
        rw [collapseWsAux_ws_false hw] at hx
        rcases List.mem_cons.mp hx with h | h
        · exact h
        · exact ih true x h hws

theorem headNotWs_collapseWsAux_true : ∀ l : List Char,
    headNotWs (collapseWsAux true l) := by
  intro l
  induction l with
  | nil => trivial
  | cons c cs ih =>
    cases hw : jsIsSpace c
    · rw [collapseWsAux_nonws hw]
      simpa [headNotWs] using hw
    · rw [collapseWsAux_ws_true hw]
      exact ih

theorem noAdjWs_collapseWsAux : ∀ (l : List Char) (b : Bool),
    noAdjWs (collapseWsAux b l) := by
  intro l
  induction l with
  | nil => intro b; exact List.chain'_nil
  | cons c cs ih =>
    intro b
    cases hw : jsIsSpace c
    · rw [collapseWsAux_nonws hw]
      rw [noAdjWs, List.chain'_cons']
      refine ⟨fun h hh => ?_, ih false⟩
      intro ⟨hc, _⟩
      rw [hw] at hc
      exact Bool.noConfusion hc
    · cases b with
      | true =>
        rw [collapseWsAux_ws_true hw]
        exact ih true
      | false =>
        rw [collapseWsAux_ws_false hw]
        rw [noAdjWs, List.chain'_cons']
        refine ⟨fun h hh => ?_, ih true⟩
        have hhead := headNotWs_collapseWsAux_true cs
        intro ⟨_, hh2⟩
        cases hz : collapseWsAux true cs with
        | nil => rw [hz] at hh; cases hh
        | cons z zs =>
          rw [hz] at hh hhead
          simp only [List.head?_cons, Option.mem_def, Option.some.injEq] at hh
          subst hh
          simp only [headNotWs] at hhead
          rw [hhead] at hh2
          exact Bool.noConfusion hh2

theorem mem_collapseWsAux {x : Char} : ∀ (l : List Char) (b : Bool),
    x ∈ collapseWsAux b l → x = ' ' ∨ x ∈ l := by
  intro l
  induction l with
  | nil => intro b h; cases h
  | cons c cs ih =>
    intro b hx
    cases hw : jsIsSpace c
    · rw [collapseWsAux_nonws hw] at hx
      rcases List.mem_cons.mp hx with h | h
      · right; exact List.mem_cons.mpr (Or.inl h)
      · rcases ih false h with h2 | h2
        · left; exact h2
        · right; exact List.mem_cons_of_mem _ h2
    · cases b with
      | true =>
        rw [collapseWsAux_ws_true hw] at hx
        rcases ih true hx with h2 | h2
        · left; exact h2
        · right; exact List.mem_cons_of_mem _ h2
      | false =>
        rw [collapseWsAux_ws_false hw] at hx
        rcases List.mem_cons.mp hx with h | h
        · left; exact h
        · rcases ih true h with h2 | h2
          · left; exact h2
          · right; exact List.mem_cons_of_mem _ h2

theorem collapseWsAux_state {l : List Char} (h : headNotWs l) :
    collapseWsAux true l = collapseWsAux false l := by
  cases l with
  | nil => rfl
  | cons c cs =>
    simp only [headNotWs] at h
    rw [collapseWsAux_nonws h, collapseWsAux_nonws h]

theorem collapseWs_id : ∀ l : List Char, wsIsSpace l → noAdjWs l →
    collapseWs l = l := by
  intro l
  induction l with
  | nil => intro _ _; rfl
  | cons c cs ih =>
    intro hws hadj
    rw [collapseWs] at ih ⊢
    cases hw : jsIsSpace c
    · rw [collapseWsAux_nonws hw]
      congr 1
      exact ih (fun x hx => hws x (List.mem_cons_of_mem _ hx)) hadj.tail
    · have hc : c = ' ' := hws c (List.mem_cons_self _ _) hw
      rw [collapseWsAux_ws_false hw]
      have hhead : headNotWs cs := by
        cases cs with
        | nil => trivial
        | cons d ds =>
          rw [noAdjWs, List.chain'_cons] at hadj
          simp only [headNotWs]
          cases hd : jsIsSpace d
          · rfl
          · exact absurd ⟨hw, hd⟩ hadj.1
      rw [collapseWsAux_state hhead, hc]
      congr 1
      exact ih (fun x hx => hws x (List.mem_cons_of_mem _ hx)) hadj.tail

theorem collapseNlAux_id : ∀ (l : List Char) (b : Bool),
    (∀ c ∈ l, c ≠ '\n') → collapseNlAux b l = l := by
  intro l
  induction l with
  | nil => intro _ _; rfl
  | cons c cs ih =>
    intro b h
    rw [collapseNlAux_other (h c (List.mem_cons_self _ _))]
    congr 1
    exact ih false (fun x hx => h x (List.mem_cons_of_mem _ hx))

theorem stripSpecial_id : ∀ l : List Char,
    (∀ c ∈ l, isAllowedChar c = true) → stripSpecial l = l := by
  intro l
  induction l with
  | nil => intro _; rfl
  | cons c cs ih =>
    intro h
    rw [stripSpecial, List.map_cons, if_pos (h c (List.mem_cons_self _ _))]
    congr 1
    exact ih (fun x hx => h x (List.mem_cons_of_mem _ hx))

theorem fixups_nil : spacingFixups [] = [] := rfl

theorem fixups_other {x : Char} (hw : jsIsSpace x = false)
    (hp : isPunct3 x = false) (v : List Char) :
    spacingFixups (x :: v) = x :: spacingFixups v := by
  unfold spacingFixups stripWsBeforePunct spaceAfterPunct
  rw [stripAux_head hw, spaceAux_other hw hp]

theorem fixups_punct_nil {p : Char} (hp : isPunct3 p = true) :
    spacingFixups [p] = [p, ' '] := by
  unfold spacingFixups stripWsBeforePunct spaceAfterPunct
  rw [stripAux_punct hp, stripAux_nil, spaceAux_punct hp]
  rfl

theorem stripAux_empty_head {c : Char} (hw : jsIsSpace c = false)
    (v : List Char) :
    ∃ z, stripWsBeforePunctAux [] (c :: v) = c :: z := by
  rw [stripAux_head hw]
  exact ⟨_, rfl⟩

theorem fixups_punct_cons {p c : Char} {v : List Char}
    (hp : isPunct3 p = true) (hw : jsIsSpace c = false) :
    spacingFixups (p :: c :: v) = p :: ' ' :: spacingFixups (c :: v) := by
  unfold spacingFixups stripWsBeforePunct spaceAfterPunct
  rw [stripAux_punct hp, spaceAux_punct hp, stripAux_head hw,
    spaceAux_state (by simpa [headNotWs] using hw)]

theorem fixups_punct_space_nil {p : Char} (hp : isPunct3 p = true) :
    spacingFixups [p, ' '] = [p, ' '] := by
  unfold spacingFixups stripWsBeforePunct spaceAfterPunct
  rw [stripAux_punct hp, stripAux_ws (by decide), stripAux_nil,
    spaceAux_punct hp]
  have hrev : ([' '] : List Char).reverse = [' '] := rfl
  rw [hrev, spaceAux_skip (by decide)]
  rfl

theorem fixups_punct_space_cons {p c : Char} {v : List Char}
    (hp : isPunct3 p = true) (hw : jsIsSpace c = false) :
    spacingFixups (p :: ' ' :: c :: v) = p :: ' ' :: spacingFixups (c :: v) := by
  unfold spacingFixups stripWsBeforePunct spaceAfterPunct
  rw [stripAux_punct hp, stripAux_ws (by decide), spaceAux_punct hp]
  cases hpc : isPunct3 c
  · rw [stripAux_other hw hpc, stripAux_head hw]
    show _ :: _ :: spaceAfterPunctAux true (' ' :: c :: stripWsBeforePunctAux [] v) = _
    rw [spaceAux_skip (by decide), spaceAux_state (by simpa [headNotWs] using hw),
      spaceAux_other hw hpc]
  · rw [stripAux_punct hpc, stripAux_punct hpc,
      spaceAux_punct hpc, spaceAux_punct hpc]

theorem fixups_space_nil : spacingFixups [' '] = [' '] := by decide

theorem fixups_space_punct {c : Char} {v : List Char} (hp : isPunct3 c = true) :
    spacingFixups (' ' :: c :: v) = spacingFixups (c :: v) := by
  unfold spacingFixups stripWsBeforePunct
  rw [stripAux_ws (by decide), stripAux_punct hp, stripAux_punct hp]

theorem fixups_space_other {c : Char} {v : List Char}
    (hw : jsIsSpace c = false) (hp : isPunct3 c = false) :
    spacingFixups (' ' :: c :: v) = ' ' :: spacingFixups (c :: v) := by
  unfold spacingFixups stripWsBeforePunct spaceAfterPunct
  rw [stripAux_ws (by decide), stripAux_other hw hp, stripAux_head hw]
  show spaceAfterPunctAux false (' ' :: c :: _) = _
  rw [spaceAux_ws_notSkipping (by decide), spaceAux_other hw hp]

theorem ws_space : jsIsSpace ' ' = true := by decide

theorem punct_space : isPunct3 ' ' = false := by decide

theorem head_eq_cons {l : List Char} {d : Char} (h : l.head? = some d) :
    ∃ z, l = d :: z := by
  cases l with
  | nil => cases h
  | cons a as =>
    simp only [List.head?_cons, Option.some.injEq] at h
    exact ⟨as, by rw [h]⟩

/-- On whitespace-normalized input (all whitespace a single isolated space)
with a non-whitespace head, the two spacing fixups produce a `normLax`-shaped
list and keep the head character. -/
theorem normLax_fixups : ∀ (n : Nat) (v : List Char), v.length ≤ n →
    wsIsSpace v → noAdjWs v → headNotWs v →
    normLax (spacingFixups v) = true ∧ (spacingFixups v).head? = v.head? := by
  intro n
  induction n with
  | zero =>
    intro v hlen _ _ _
    have hv : v = [] := List.length_eq_zero.mp (Nat.le_zero.mp hlen)
    subst hv
    exact ⟨rfl, rfl⟩
  | succ n ih =>
    intro v hlen hws hadj hhead
    rcases v with _ | ⟨c, cs⟩
    · exact ⟨rfl, rfl⟩
    have hwc : jsIsSpace c = false := hhead
    rcases cs with _ | ⟨d, rest⟩
    · cases hpc : isPunct3 c
      · rw [fixups_other hwc hpc, fixups_nil]
        exact ⟨by simp [normLax, hwc], rfl⟩
      · rw [fixups_punct_nil hpc]
        exact ⟨by simp [normLax, hpc], rfl⟩
    cases hwd : jsIsSpace d
    · -- second character not whitespace
      have hlen' : (d :: rest).length ≤ n := by
        simp only [List.length_cons] at hlen ⊢
        omega
      have hsub := ih (d :: rest) hlen'
        (fun x hx => hws x (List.mem_cons_of_mem _ hx)) hadj.tail
        (by simpa [headNotWs] using hwd)
      obtain ⟨z, hz⟩ := head_eq_cons
        (show (spacingFixups (d :: rest)).head? = some d by rw [hsub.2]; rfl)
      have hlax : normLax (d :: z) = true := hz ▸ hsub.1
      cases hpc : isPunct3 c
      · rw [fixups_other hwc hpc, hz]
        refine ⟨?_, rfl⟩
        simp [normLax, hpc, hwc, hwd, hlax, ws_space, punct_space]
      · rw [fixups_punct_cons hpc hwd, hz]
        refine ⟨?_, rfl⟩
        simp [normLax, hpc, hlax]
    · -- second character is whitespace, hence a single space
      have hd : d = ' ' := hws d (List.mem_cons_of_mem _ (List.mem_cons_self _ _)) hwd
      subst hd
      rcases rest with _ | ⟨e, v₃⟩
      · cases hpc : isPunct3 c
        · rw [fixups_other hwc hpc, fixups_space_nil]
          exact ⟨by simp [normLax, hpc, hwc, ws_space, punct_space], rfl⟩
        · rw [fixups_punct_space_nil hpc]
          exact ⟨by simp [normLax, hpc, ws_space, punct_space], rfl⟩
      · have hwe : jsIsSpace e = false := by
          have h2 := List.chain'_cons.mp hadj.tail
          cases he : jsIsSpace e
          · rfl
          · exact absurd ⟨by decide, he⟩ h2.1
        have hlen' : (e :: v₃).length ≤ n := by
          simp only [List.length_cons] at hlen ⊢
          omega
        have hsub := ih (e :: v₃) hlen'
          (fun x hx => hws x (List.mem_cons_of_mem _ (List.mem_cons_of_mem _ hx)))
          hadj.tail.tail (by simpa [headNotWs] using hwe)
        obtain ⟨z, hz⟩ := head_eq_cons
          (show (spacingFixups (e :: v₃)).head? = some e by rw [hsub.2]; rfl)
        have hlax : normLax (e :: z) = true := hz ▸ hsub.1
        cases hpc : isPunct3 c
        · cases hpe : isPunct3 e
          · rw [fixups_other hwc hpc, fixups_space_other hwe hpe, hz]
            refine ⟨?_, rfl⟩
            simp [normLax, hpc, hwc, hwe, hpe, hlax, ws_space, punct_space]
          · rw [fixups_other hwc hpc, fixups_space_punct hpe, hz]
            refine ⟨?_, rfl⟩
            simp [normLax, hpc, hwc, hwe, hlax, ws_space, punct_space]
        · rw [fixups_punct_space_cons hpc hwe, hz]
          refine ⟨?_, rfl⟩
          simp [normLax, hpc, hlax, ws_space, punct_space]

theorem dtw_nil : dropTrailingWs [] = [] := rfl

theorem dtw_cons_of_ne {l : List Char} (c : Char) (h : dropTrailingWs l ≠ []) :
    dropTrailingWs (c :: l) = c :: dropTrailingWs l := by
  unfold dropTrailingWs at h ⊢
  have h2 : ¬ (l.reverse.dropWhile jsIsSpace).isEmpty = true := by
    intro he
    exact h (by rw [List.isEmpty_iff.mp he]; rfl)
  rw [List.reverse_cons, List.dropWhile_append, if_neg h2, List.reverse_append]
  rfl

theorem dtw_cons_nonws {c : Char} (h : jsIsSpace c = false) (l : List Char) :
    dropTrailingWs (c :: l) = c :: dropTrailingWs l := by
  by_cases hne : dropTrailingWs l = []
  · have h2 : l.reverse.dropWhile jsIsSpace = [] := by
      cases hh : l.reverse.dropWhile jsIsSpace with
      | nil => rfl
      | cons x xs =>
        unfold dropTrailingWs at hne
        rw [hh] at hne
        exact absurd (List.reverse_eq_nil_iff.mp hne) (by simp)
    have hall : ∀ a ∈ l.reverse, jsIsSpace a = true :=
      List.dropWhile_eq_nil_iff.mp h2
    rw [hne]
    unfold dropTrailingWs
    rw [List.reverse_cons, List.dropWhile_append_of_pos hall,
      List.dropWhile_cons_of_neg (by simp [h])]
    simp
  · exact dtw_cons_of_ne c hne

theorem dtw_ne_nil {c : Char} (h : jsIsSpace c = false) (l : List Char) :
    dropTrailingWs (c :: l) ≠ [] := by
  rw [dtw_cons_nonws h]
  simp

theorem normLax_head : ∀ {l : List Char}, normLax l = true → headNotWs l := by
  intro l h
  match l with
  | [] => trivial
  | [c] =>
    simp only [normLax, Bool.not_eq_true'] at h
    exact h
  | c :: d :: rest =>
    show jsIsSpace c = false
    cases hp : isPunct3 c
    · cases hw : jsIsSpace c
      · rfl
      · simp [normLax, hp, hw] at h
    · exact punct_not_ws hp

theorem normCore_head : ∀ {l : List Char}, normCore l = true → headNotWs l := by
  intro l h
  match l with
  | [] => trivial
  | [c] =>
    simp only [normCore, Bool.not_eq_true'] at h
    exact h
  | c :: d :: rest =>
    show jsIsSpace c = false
    cases hp : isPunct3 c
    · cases hw : jsIsSpace c
      · rfl
      · simp [normCore, hp, hw] at h
    · exact punct_not_ws hp

/-- Trimming trailing whitespace turns the lax shape into the strict one. -/
theorem normCore_dtw : ∀ t : List Char, normLax t = true →
    normCore (dropTrailingWs t) = true := by
  intro t
  induction t using normLax.induct with
  | case1 => intro _; rfl
  | case2 c =>
    intro h
    simp only [normLax, Bool.not_eq_true'] at h
    rw [dtw_cons_nonws h, dtw_nil]
    simp [normCore, h]
  | case3 c d rest hp ih =>
    intro h
    simp only [normLax, hp, if_true] at h
    simp only [Bool.and_eq_true, decide_eq_true_eq] at h
    obtain ⟨hd, hrest⟩ := h
    subst hd
    rcases rest with _ | ⟨e, v⟩
    · rw [dtw_cons_nonws (punct_not_ws hp)]
      rw [show dropTrailingWs [' '] = [] from rfl]
      simp [normCore, punct_not_ws hp]
    · have hwe : jsIsSpace e = false := normLax_head hrest
      have hne : dropTrailingWs (e :: v) ≠ [] := dtw_ne_nil hwe v
      rw [dtw_cons_nonws (punct_not_ws hp), dtw_cons_of_ne ' ' hne]
      have hcore := ih hrest
      rw [dtw_cons_nonws hwe] at hcore ⊢
      simp [normCore, hp, hcore]
  | case4 c d rest hp hw =>
    intro h
    simp [normLax, hp, hw] at h
  | case5 c d rest hp hw hd ih =>
    intro h
    have hwc : jsIsSpace c = false := by simpa using hw
    have hpc : isPunct3 c = false := by simpa using hp
    rcases rest with _ | ⟨e, v⟩
    · simp only [normLax, hpc, hwc, hd] at h
      simp only [Bool.false_eq_true, if_false, Bool.and_eq_true,
        decide_eq_true_eq, if_true, Bool.and_true] at h
      subst h
      rw [dtw_cons_nonws hwc]
      rw [show dropTrailingWs [' '] = [] from rfl]
      simp [normCore, hwc]
    · simp only [normLax, hpc, hwc, hd] at h
      simp only [Bool.false_eq_true, if_false, if_true, Bool.and_eq_true,
        decide_eq_true_eq, Bool.not_eq_true'] at h
      obtain ⟨⟨hdsp, hwe, hpe⟩, hrest⟩ := h
      subst hdsp
      have hne : dropTrailingWs (e :: v) ≠ [] := dtw_ne_nil hwe v
      rw [dtw_cons_nonws hwc, dtw_cons_of_ne ' ' hne]
      have hcore := ih hrest
      rw [dtw_cons_nonws hwe] at hcore ⊢
      simp [normCore, hpc, hwc, hwe, hpe, hcore, ws_space]
  | case6 c d rest hp hw hd ih =>
    intro h
    have hwc : jsIsSpace c = false := by simpa using hw
    have hpc : isPunct3 c = false := by simpa using hp
    have hwd : jsIsSpace d = false := by simpa using hd
    simp only [normLax, hpc, hwc, hwd] at h
    simp only [Bool.false_eq_true, if_false] at h
    have hcore := ih h
    rw [dtw_cons_nonws hwd] at hcore
    rw [dtw_cons_nonws hwc, dtw_cons_nonws hwd]
    simp [normCore, hpc, hwc, hwd, hcore]

/-- Applying the spacing fixups to a trimmed normal form reproduces it, up to
one appended space after a final punctuation mark. -/
theorem fixups_roundtrip : ∀ t : List Char, normCore t = true →
    spacingFixups t = t ∨ spacingFixups t = t ++ [' '] := by
  intro t
  induction t using normCore.induct with
  | case1 => intro _; left; rfl
  | case2 c =>
    intro h
    simp only [normCore, Bool.not_eq_true'] at h
    cases hp : isPunct3 c
    · left
      rw [fixups_other h hp, fixups_nil]
    · right
      rw [fixups_punct_nil hp]
      rfl
  | case3 c d rest hp ih =>
    intro h
    simp only [normCore, hp, if_true] at h
    simp only [Bool.and_eq_true, decide_eq_true_eq, Bool.not_eq_true'] at h
    obtain ⟨⟨hd, hne⟩, hrest⟩ := h
    subst hd
    rcases rest with _ | ⟨e, v⟩
    · simp at hne
    · have hwe : jsIsSpace e = false := normCore_head hrest
      rw [fixups_punct_space_cons hp hwe]
      rcases ih hrest with h2 | h2
      · left; rw [h2]
      · right; rw [h2]; rfl
  | case4 c d rest hp hw =>
    intro h
    simp [normCore, hp, hw] at h
  | case5 c d rest hp hw hd ih =>
    intro h
    have hwc : jsIsSpace c = false := by simpa using hw
    have hpc : isPunct3 c = false := by simpa using hp
    rcases rest with _ | ⟨e, v⟩
    · simp [normCore, hpc, hwc, hd] at h
    · simp only [normCore, hpc, hwc, hd] at h
      simp only [Bool.false_eq_true, if_false, if_true, Bool.and_eq_true,
        decide_eq_true_eq, Bool.not_eq_true'] at h
      obtain ⟨⟨hdsp, hwe, hpe⟩, hrest⟩ := h
      subst hdsp
      rw [fixups_other hwc hpc, fixups_space_other hwe hpe]
      rcases ih hrest with h2 | h2
      · left; rw [h2]
      · right; rw [h2]; rfl
  | case6 c d rest hp hw hd ih =>
    intro h
    have hwc : jsIsSpace c = false := by simpa using hw
    have hpc : isPunct3 c = false := by simpa using hp
    have hwd : jsIsSpace d = false := by simpa using hd
    simp only [normCore, hpc, hwc, hwd] at h
    simp only [Bool.false_eq_true, if_false] at h
    rw [fixups_other hwc hpc]
    rcases ih h with h2 | h2
    · left; rw [h2]
    · right; rw [h2]; rfl

theorem dropWhile_headNotWs {l : List Char} (h : headNotWs l) :
    l.dropWhile jsIsSpace = l := by
  cases l with
  | nil => rfl
  | cons c cs =>
    exact List.dropWhile_cons_of_neg (by simp only [headNotWs] at h; simp [h])

theorem trim_cons_ws {c : Char} (h : jsIsSpace c = true) (l : List Char) :
    jsTrim (c :: l) = jsTrim l := by
  unfold jsTrim
  rw [List.dropWhile_cons_of_pos (by simp [h])]

theorem normCore_dtw_id : ∀ t : List Char, normCore t = true →
    dropTrailingWs t = t := by
  intro t
  induction t using normCore.induct with
  | case1 => intro _; rfl
  | case2 c =>
    intro h
    simp only [normCore, Bool.not_eq_true'] at h
    rw [dtw_cons_nonws h, dtw_nil]
  | case3 c d rest hp ih =>
    intro h
    simp only [normCore, hp, if_true] at h
    simp only [Bool.and_eq_true, decide_eq_true_eq, Bool.not_eq_true'] at h
    obtain ⟨⟨hd, hne⟩, hrest⟩ := h
    subst hd
    rcases rest with _ | ⟨e, v⟩
    · simp at hne
    · have hwe : jsIsSpace e = false := normCore_head hrest
      have hnn : dropTrailingWs (e :: v) ≠ [] := dtw_ne_nil hwe v
      rw [dtw_cons_nonws (punct_not_ws hp), dtw_cons_of_ne ' ' hnn, ih hrest]
  | case4 c d rest hp hw =>
    intro h
    simp [normCore, hp, hw] at h
  | case5 c d rest hp hw hd ih =>
    intro h
    have hwc : jsIsSpace c = false := by simpa using hw
    have hpc : isPunct3 c = false := by simpa using hp
    rcases rest with _ | ⟨e, v⟩
    · simp [normCore, hpc, hwc, hd] at h
    · simp only [normCore, hpc, hwc, hd] at h
      simp only [Bool.false_eq_true, if_false, if_true, Bool.and_eq_true,
        decide_eq_true_eq, Bool.not_eq_true'] at h
      obtain ⟨⟨hdsp, hwe, hpe⟩, hrest⟩ := h
      subst hdsp
      have hnn : dropTrailingWs (e :: v) ≠ [] := dtw_ne_nil hwe v
      rw [dtw_cons_nonws hwc, dtw_cons_of_ne ' ' hnn, ih hrest]
  | case6 c d rest hp hw hd ih =>
    intro h
    have hwc : jsIsSpace c = false := by simpa using hw
    have hwd : jsIsSpace d = false := by simpa using hd
    have hpc : isPunct3 c = false := by simpa using hp
    simp only [normCore, hpc, hwc, hwd] at h
    simp only [Bool.false_eq_true, if_false] at h
    rw [dtw_cons_nonws hwc, ih h]

theorem jsTrim_normCore {t : List Char} (h : normCore t = true) : jsTrim t = t := by
  unfold jsTrim
  rw [dropWhile_headNotWs (normCore_head h), normCore_dtw_id t h]

theorem dtw_append_space (l : List Char) :
    dropTrailingWs (l ++ [' ']) = dropTrailingWs l := by
  unfold dropTrailingWs
  rw [List.reverse_append]
  rw [show ([' '] : List Char).reverse = [' '] from rfl]
  rw [show ([' '] : List Char) ++ l.reverse = ' ' :: l.reverse from rfl]
  rw [List.dropWhile_cons_of_pos (by decide)]

theorem jsTrim_normCore_append {t : List Char} (h : normCore t = true) :
    jsTrim (t ++ [' ']) = t := by
  cases t with
  | nil => rfl
  | cons c cs =>
    have hc : jsIsSpace c = false := normCore_head h
    unfold jsTrim
    rw [List.cons_append, List.dropWhile_cons_of_neg (by simp [hc]),
      ← List.cons_append, dtw_append_space, normCore_dtw_id _ h]

theorem normCore_ws_shape : ∀ t : List Char, normCore t = true →
    wsIsSpace t ∧ noAdjWs t := by
  intro t
  induction t using normCore.induct with
  | case1 =>
    intro _
    exact ⟨fun c hc => absurd hc (List.not_mem_nil c), List.chain'_nil⟩
  | case2 c =>
    intro h
    simp only [normCore, Bool.not_eq_true'] at h
    refine ⟨?_, List.chain'_singleton c⟩
    intro x hx hxw
    rcases List.mem_cons.mp hx with h2 | h2
    · subst h2; rw [h] at hxw; exact Bool.noConfusion hxw
    · exact absurd h2 (List.not_mem_nil x)
  | case3 c d rest hp ih =>
    intro h
    simp only [normCore, hp, if_true] at h
    simp only [Bool.and_eq_true, decide_eq_true_eq, Bool.not_eq_true'] at h
    obtain ⟨⟨hd, hne⟩, hrest⟩ := h
    subst hd
    obtain ⟨ihw, iha⟩ := ih hrest
    have hwc : jsIsSpace c = false := punct_not_ws hp
    constructor
    · intro x hx hxw
      rcases List.mem_cons.mp hx with h2 | h2
      · subst h2; rw [hwc] at hxw; exact Bool.noConfusion hxw
      · rcases List.mem_cons.mp h2 with h3 | h3
        · exact h3
        · exact ihw x h3 hxw
    · rw [noAdjWs, List.chain'_cons]
      refine ⟨fun hb => by rw [hwc] at hb; exact Bool.noConfusion hb.1, ?_⟩
      rw [List.chain'_cons']
      refine ⟨?_, iha⟩
      intro y hy hb
      rcases rest with _ | ⟨e, v⟩
      · cases hy
      · simp only [List.head?_cons, Option.mem_def, Option.some.injEq] at hy
        subst hy
        rw [normCore_head hrest] at hb
        exact Bool.noConfusion hb.2
  | case4 c d rest hp hw =>
    intro h
    simp [normCore, hp, hw] at h
  | case5 c d rest hp hw hd ih =>
    intro h
    have hwc : jsIsSpace c = false := by simpa using hw
    have hpc : isPunct3 c = false := by simpa using hp
    rcases rest with _ | ⟨e, v⟩
    · simp [normCore, hpc, hwc, hd] at h
    · simp only [normCore, hpc, hwc, hd] at h
      simp only [Bool.false_eq_true, if_false, if_true, Bool.and_eq_true,
        decide_eq_true_eq, Bool.not_eq_true'] at h
      obtain ⟨⟨hdsp, hwe, hpe⟩, hrest⟩ := h
      subst hdsp
      obtain ⟨ihw, iha⟩ := ih hrest
      constructor
      · intro x hx hxw
        rcases List.mem_cons.mp hx with h2 | h2
        · subst h2; rw [hwc] at hxw; exact Bool.noConfusion hxw
        · rcases List.mem_cons.mp h2 with h3 | h3
          · exact h3
          · exact ihw x h3 hxw
      · rw [noAdjWs, List.chain'_cons]
        refine ⟨fun hb => by rw [hwc] at hb; exact Bool.noConfusion hb.1, ?_⟩
        rw [List.chain'_cons']
        refine ⟨?_, iha⟩
        intro y hy hb
        simp only [List.head?_cons, Option.mem_def, Option.some.injEq] at hy
        subst hy
        rw [hwe] at hb
        exact Bool.noConfusion hb.2
  | case6 c d rest hp hw hd ih =>
    intro h
    have hwc : jsIsSpace c = false := by simpa using hw
    have hwd : jsIsSpace d = false := by simpa using hd
    have hpc : isPunct3 c = false := by simpa using hp
    simp only [normCore, hpc, hwc, hwd] at h
    simp only [Bool.false_eq_true, if_false] at h
    obtain ⟨ihw, iha⟩ := ih h
    constructor
    · intro x hx hxw
      rcases List.mem_cons.mp hx with h2 | h2
      · subst h2; rw [hwc] at hxw; exact Bool.noConfusion hxw
      · exact ihw x h2 hxw
    · rw [noAdjWs, List.chain'_cons]
      exact ⟨fun hb => by rw [hwc] at hb; exact Bool.noConfusion hb.1, iha⟩

theorem mem_spaceAfterPunctAux {x : Char} : ∀ (l : List Char) (b : Bool),
    x ∈ spaceAfterPunctAux b l → x = ' ' ∨ x ∈ l := by
  intro l
  induction l with
  | nil => intro b h; cases h
  | cons c cs ih =>
    intro b hx
    cases hp : isPunct3 c
    · cases hw : jsIsSpace c
      · rw [spaceAux_other hw hp] at hx
        rcases List.mem_cons.mp hx with h | h
        · right; exact List.mem_cons.mpr (Or.inl h)
        · rcases ih false h with h2 | h2
          · left; exact h2
          · right; exact List.mem_cons_of_mem _ h2
      · cases b with
        | true =>
          rw [spaceAux_skip hw] at hx
          rcases ih true hx with h2 | h2
          · left; exact h2
          · right; exact List.mem_cons_of_mem _ h2
        | false =>
          rw [spaceAux_ws_notSkipping hw] at hx
          rcases List.mem_cons.mp hx with h | h
          · right; exact List.mem_cons.mpr (Or.inl h)
          · rcases ih false h with h2 | h2
            · left; exact h2
            · right; exact List.mem_cons_of_mem _ h2
    · rw [spaceAux_punct hp] at hx
      rcases List.mem_cons.mp hx with h | h
      · right; exact List.mem_cons.mpr (Or.inl h)
      · rcases List.mem_cons.mp h with h2 | h2
        · left; exact h2
        · rcases ih true h2 with h3 | h3
          · left; exact h3
          · right; exact List.mem_cons_of_mem _ h3

theorem mem_stripWsBeforePunctAux {x : Char} : ∀ (l buf : List Char),
    x ∈ stripWsBeforePunctAux buf l → x ∈ buf ∨ x ∈ l := by
  intro l
  induction l with
  | nil =>
    intro buf h
    rw [stripAux_nil] at h
    left
    exact List.mem_reverse.mp h
  | cons c cs ih =>
    intro buf hx
    cases hw : jsIsSpace c
    · cases hp : isPunct3 c
      · rw [stripAux_other hw hp] at hx
        rcases List.mem_append.mp hx with h | h
        · left; exact List.mem_reverse.mp h
        · rcases List.mem_cons.mp h with h2 | h2
          · right; exact List.mem_cons.mpr (Or.inl h2)
          · rcases ih [] h2 with h3 | h3
            · exact absurd h3 (List.not_mem_nil x)
            · right; exact List.mem_cons_of_mem _ h3
      · rw [stripAux_punct hp] at hx
        rcases List.mem_cons.mp hx with h | h
        · right; exact List.mem_cons.mpr (Or.inl h)
        · rcases ih [] h with h3 | h3
          · exact absurd h3 (List.not_mem_nil x)
          · right; exact List.mem_cons_of_mem _ h3
    · rw [stripAux_ws hw] at hx
      rcases ih (c :: buf) hx with h | h
      · rcases List.mem_cons.mp h with h2 | h2
        · right; exact List.mem_cons.mpr (Or.inl h2)
        · left; exact h2
      · right; exact List.mem_cons_of_mem _ h

theorem mem_jsTrim {x : Char} {l : List Char} (h : x ∈ jsTrim l) : x ∈ l := by
  unfold jsTrim dropTrailingWs at h
  have h1 := List.mem_reverse.mp h
  have h2 := (List.dropWhile_sublist _).subset h1
  have h3 := List.mem_reverse.mp h2
  exact (List.dropWhile_sublist _).subset h3

/-- The trimmed output of the spacing fixups on whitespace-normalized input is
in strict normal form. -/
theorem normCore_trim_fixups : ∀ v : List Char, wsIsSpace v → noAdjWs v →
    normCore (jsTrim (spacingFixups v)) = true := by
  have core : ∀ v : List Char, wsIsSpace v → noAdjWs v → headNotWs v →
      normCore (jsTrim (spacingFixups v)) = true := by
    intro v hws hadj hhead
    have h1 := normLax_fixups v.length v (le_refl _) hws hadj hhead
    have hdw : (spacingFixups v).dropWhile jsIsSpace = spacingFixups v := by
      apply dropWhile_headNotWs
      cases v with
      | nil => rw [fixups_nil]; trivial
      | cons c cs =>
        obtain ⟨z, hz⟩ := head_eq_cons (show (spacingFixups (c :: cs)).head? = some c
          by rw [h1.2]; rfl)
        rw [hz]
        exact hhead
    unfold jsTrim
    rw [hdw]
    exact normCore_dtw _ h1.1
  intro v hws hadj
  rcases v with _ | ⟨c, cs⟩
  · exact core [] hws hadj trivial
  cases hw : jsIsSpace c
  · exact core _ hws hadj hw
  · have hc : c = ' ' := hws c (List.mem_cons_self _ _) hw
    subst hc
    rcases cs with _ | ⟨c₁, v₂⟩
    · rw [fixups_space_nil]
      decide
    · have hwc₁ : jsIsSpace c₁ = false := by
        have h2 := List.chain'_cons.mp hadj
        cases he : jsIsSpace c₁
        · rfl
        · exact absurd ⟨by decide, he⟩ h2.1
      have hws' : wsIsSpace (c₁ :: v₂) :=
        fun y hy => hws y (List.mem_cons_of_mem _ hy)
      cases hp : isPunct3 c₁
      · rw [fixups_space_other hwc₁ hp, trim_cons_ws (by decide)]
        exact core (c₁ :: v₂) hws' hadj.tail hwc₁
      · rw [fixups_space_punct hp]
        exact core (c₁ :: v₂) hws' hadj.tail hwc₁

/-- C2 amended: on inputs made only of allow-listed characters, the
normalizer is idempotent. -/
theorem C2_amended_idempotent_on_allowed (s : List Char)
    (hall : ∀ c ∈ s, isAllowedChar c = true) :
    cleanAndProcessText (cleanAndProcessText s) = cleanAndProcessText s := by
  have hu_ws : wsIsSpace (collapseWs s) := wsIsSpace_collapseWsAux s false
  have hu_adj : noAdjWs (collapseWs s) := noAdjWs_collapseWsAux s false
  have hu_nl : ∀ c ∈ collapseWs s, c ≠ '\n' := by
    intro c hc he
    subst he
    have h2 := hu_ws _ hc (by decide)
    exact absurd h2 (by decide)
  have hu_all : ∀ c ∈ collapseWs s, isAllowedChar c = true := by
    intro c hc
    rcases mem_collapseWsAux s false hc with h | h
    · subst h; decide
    · exact hall c h
  have e1 : cleanAndProcessText s = jsTrim (spacingFixups (collapseWs s)) := by
    rw [cleanAndProcessText_eq,
      show collapseNl (collapseWs s) = collapseWs s from
        collapseNlAux_id (collapseWs s) false hu_nl,
      stripSpecial_id _ hu_all]
  have ht_norm : normCore (cleanAndProcessText s) = true := by
    rw [e1]
    exact normCore_trim_fixups _ hu_ws hu_adj
  obtain ⟨ht_ws, ht_adj⟩ := normCore_ws_shape _ ht_norm
  have ht_all : ∀ c ∈ cleanAndProcessText s, isAllowedChar c = true := by
    intro c hc
    rw [e1] at hc
    have hc2 := mem_jsTrim hc
    unfold spacingFixups spaceAfterPunct stripWsBeforePunct at hc2
    rcases mem_spaceAfterPunctAux _ false hc2 with h | h
    · subst h; decide
    · rcases mem_stripWsBeforePunctAux _ [] h with h2 | h2
      · exact absurd h2 (List.not_mem_nil c)
      · exact hu_all c h2
  have ht_nl : ∀ c ∈ cleanAndProcessText s, c ≠ '\n' := by
    intro c hc he
    subst he
    have h2 := ht_ws _ hc (by decide)
    exact absurd h2 (by decide)
  rw [cleanAndProcessText_eq (cleanAndProcessText s),
    collapseWs_id _ ht_ws ht_adj,
    show collapseNl (cleanAndProcessText s) = cleanAndProcessText s from
      collapseNlAux_id _ false ht_nl,
    stripSpecial_id _ ht_all]
  rcases fixups_roundtrip _ ht_norm with h | h
  · rw [h]
    exact jsTrim_normCore ht_norm
  · rw [h]
    exact jsTrim_normCore_append ht_norm

/-- Witness for the amended C2 on a concrete allow-listed input. -/
theorem C2_amended_idempotent_witness :
    (∀ c ∈ "Dr.  Smith??  asked:  why!".toList, isAllowedChar c = true) ∧
    cleanAndProcessText (cleanAndProcessText "Dr.  Smith??  asked:  why!".toList) =
      cleanAndProcessText "Dr.  Smith??  asked:  why!".toList :=
  ⟨by decide, C2_amended_idempotent_on_allowed _ (by decide)⟩

end PdfAI
